import Mathlib

set_option maxRecDepth 4000

/-!
Verification development for the @mindstate/sdk capsule pipeline.

This file gives a shallow embedding of the SDK's cryptographic sealing and
verification core (capsule serialization, commitment hashing, symmetric
sealing, key wrapping and delivery, lineage verification, and the
publish/consume orchestration), translated from the TypeScript sources, and
proves the frozen specification claims about it.

Modelling conventions:
- byte buffers (`Uint8Array`, `Buffer`) are `List Nat` with entries `< 256`
  where it matters;
- external cryptographic primitives (keccak-256 from @noble/hashes,
  AES-256-GCM from node:crypto, NaCl box from tweetnacl) are modelled by
  executable stand-in functions with the same interface, layouts and failure
  structure; no claim depends on the cryptographic strength of a primitive,
  only on determinism, layout, and the SDK's own guard/check logic, which is
  translated verbatim;
- randomness (content keys, IVs, nonces) is made explicit as parameters;
- asynchronous calls to external collaborators (ledger, storage, key
  delivery) are modelled by oracle records passed as inputs, with the call
  sequence recorded in an explicit trace where a claim is about ordering;
- JS `Map` objects are association lists with overwrite-on-set semantics;
  JS string `toLowerCase` is modelled per-character (inputs of interest are
  ASCII hex strings and addresses).
-/

namespace Mindstate

/-- JS `String.prototype.toLowerCase`, modelled per character. -/
def jsLower (s : String) : String :=
  String.mk (s.data.map Char.toLower)

/-- Bytes are lists of naturals; a well-formed buffer has entries `< 256`. -/
abbrev Bytes := List Nat

/-- Error taxonomy of the SDK, as distinct constructors.  The source throws
`Error` values with distinguishing messages; each message class is one
constructor here, carrying the structured data interpolated into it. -/
inductive Err where
  | invalidKeyLength (got : Nat)
  | tooShort (got : Nat)
  | authenticationFailed
  | unwrapFailed
  | serializationError
  | validationError (what : String)
  | parseError
  | commitmentMismatch (computed expected : String)
  | malformedEnvelope
  | rangeError
  | typeError
  | genesisPredecessorNotZero (got : String)
  | lineageBroken (index : Nat)
  | lineageCycle (at_ : String)
  | checkpointNotFound (id : String)
  | envelopeNotYetAvailable
  | envelopeFetchFailed
  | redeemFailed
  | downloadFailed
  | noSigner
  | noKeyStored (id : String)
  | badConsumerKey (got : Nat)
  deriving DecidableEq, Repr

-- ---------------------------------------------------------------------------
-- Hex encoding/decoding (keyDelivery.ts / commitment.ts `toHex`, `fromHex`)
-- ---------------------------------------------------------------------------

/-- Lowercase hex digit for a value `< 16`. -/
def hexDigitChar (n : Nat) : Char :=
  if n < 10 then Char.ofNat (48 + n) else Char.ofNat (87 + n)

/-- JS `n.toString(16)` for a natural number (lowercase digits). -/
def natToHexChars (n : Nat) : List Char :=
  (Nat.toDigits 16 n).map fun c =>
    if c.isUpper then Char.toLower c else c

/-- JS `b.toString(16).padStart(2, '0')` for one byte: for a `Uint8Array`
entry (`b < 256`) this is exactly the two lowercase hex digits. -/
def byteToHexChars (b : Nat) : List Char :=
  if b < 256 then [hexDigitChar (b / 16), hexDigitChar (b % 16)]
  else natToHexChars b

/-- `toHex` from the source: 0x-prefixed lowercase hex of a byte buffer. -/
def toHex (bytes : Bytes) : String :=
  String.mk ('0' :: 'x' :: (bytes.map byteToHexChars).flatten)

/-- Value of one hex digit character, if it is one (0-9, a-f, A-F). -/
def hexDigitVal? (c : Char) : Option Nat :=
  if '0' ≤ c ∧ c ≤ '9' then some (c.toNat - 48)
  else if 'a' ≤ c ∧ c ≤ 'f' then some (c.toNat - 87)
  else if 'A' ≤ c ∧ c ≤ 'F' then some (c.toNat - 55)
  else none

/-- `hex.startsWith('0x') ? hex.slice(2) : hex`: the hex body after an
optional 0x prefix. -/
def hexBody (s : String) : List Char :=
  match s.data with
  | '0' :: 'x' :: rest => rest
  | l => l

/-- JS whitespace as skipped by `parseInt` (ECMAScript WhiteSpace and
LineTerminator code points). -/
def isJsStrWs (c : Char) : Bool :=
  c.toNat = 9 ∨ c.toNat = 10 ∨ c.toNat = 11 ∨ c.toNat = 12 ∨ c.toNat = 13 ∨
    c.toNat = 32 ∨ c.toNat = 160 ∨ c.toNat = 5760 ∨
    (8192 ≤ c.toNat ∧ c.toNat ≤ 8202) ∨ c.toNat = 8232 ∨ c.toNat = 8233 ∨
    c.toNat = 8239 ∨ c.toNat = 8287 ∨ c.toNat = 12288 ∨ c.toNat = 65279

/-- JS `parseInt(two-char-string, 16)` fed into a `Uint8Array` slot: parses
the longest hex-digit run (after optional leading whitespace or a sign);
`NaN` becomes 0; a negative value is stored modulo 256. -/
def parseIntHexPair (c1 c2 : Char) : Nat :=
  match hexDigitVal? c1, hexDigitVal? c2 with
  | some a, some b =>
    if c1 = '0' ∧ (c2 = 'x' ∨ c2 = 'X') then 0 else a * 16 + b
  | some a, none => if c1 = '0' ∧ (c2 = 'x' ∨ c2 = 'X') then 0 else a
  | none, some b =>
    if isJsStrWs c1 ∨ c1 = '+' then b
    else if c1 = '-' then (256 - b) % 256
    else 0
  | none, none => 0

/-- Decode consecutive pairs of characters as bytes. -/
def hexPairsToBytes : List Char → Bytes
  | c1 :: c2 :: rest => parseIntHexPair c1 c2 :: hexPairsToBytes rest
  | _ => []

/-- `fromHex` from the source.  Strips an optional 0x prefix and decodes
consecutive digit pairs.  It never fails: `new Uint8Array(clean.length / 2)`
truncates a fractional length (ECMAScript ToIndex), so an odd-length body
silently drops its final nibble, and invalid digit pairs are decoded by
`parseInt` semantics with NaN stored as 0. -/
def fromHex (hex : String) : Bytes :=
  hexPairsToBytes (hexBody hex)

-- ---------------------------------------------------------------------------
-- UTF-8 (TextEncoder / TextDecoder)
-- ---------------------------------------------------------------------------

/-- UTF-8 encoding of one character (by code point). -/
def utf8EncodeChar (c : Char) : Bytes :=
  let n := c.toNat
  if n < 0x80 then [n]
  else if n < 0x800 then [0xC0 + n / 64, 0x80 + n % 64]
  else if n < 0x10000 then
    [0xE0 + n / 4096, 0x80 + (n / 64) % 64, 0x80 + n % 64]
  else
    [0xF0 + n / 262144, 0x80 + (n / 4096) % 64, 0x80 + (n / 64) % 64,
      0x80 + n % 64]

/-- `TextEncoder.encode`: UTF-8 bytes of a string. -/
def utf8Encode (s : String) : Bytes :=
  (s.data.map utf8EncodeChar).flatten

/-- UTF-8 decoding, fuel-indexed on the number of bytes. -/
def utf8DecodeAux : Nat → Bytes → Option (List Char)
  | 0, [] => some []
  | 0, _ :: _ => none
  | _ + 1, [] => some []
  | fuel + 1, b :: rest =>
    if b < 0x80 then
      (utf8DecodeAux fuel rest).map (Char.ofNat b :: ·)
    else if b < 0xC0 then none
    else if b < 0xE0 then
      match rest with
      | b2 :: r2 =>
        if 0x80 ≤ b2 ∧ b2 < 0xC0 then
          (utf8DecodeAux fuel r2).map (Char.ofNat ((b - 0xC0) * 64 + (b2 - 0x80)) :: ·)
        else none
      | [] => none
    else if b < 0xF0 then
      match rest with
      | b2 :: b3 :: r3 =>
        if (0x80 ≤ b2 ∧ b2 < 0xC0) ∧ (0x80 ≤ b3 ∧ b3 < 0xC0) then
          (utf8DecodeAux fuel r3).map
            (Char.ofNat ((b - 0xE0) * 4096 + (b2 - 0x80) * 64 + (b3 - 0x80)) :: ·)
        else none
      | _ => none
    else if b < 0xF8 then
      match rest with
      | b2 :: b3 :: b4 :: r4 =>
        if (0x80 ≤ b2 ∧ b2 < 0xC0) ∧ (0x80 ≤ b3 ∧ b3 < 0xC0) ∧
            (0x80 ≤ b4 ∧ b4 < 0xC0) then
          (utf8DecodeAux fuel r4).map
            (Char.ofNat ((b - 0xF0) * 262144 + (b2 - 0x80) * 4096 +
              (b3 - 0x80) * 64 + (b4 - 0x80)) :: ·)
        else none
      | _ => none
    else none

/-- `TextDecoder.decode`: UTF-8 decoding of a byte buffer to a string. -/
def utf8Decode (bs : Bytes) : Option String :=
  (utf8DecodeAux bs.length bs).map String.mk

-- ---------------------------------------------------------------------------
-- JSON values (JS runtime values handled by the SDK)
-- ---------------------------------------------------------------------------

/-- JSON-representable JS values.  Numbers are modelled as integers (the SDK
hashes canonical JSON; none of the claims involve non-integer numerics). -/
inductive Json where
  | null
  | bool (b : Bool)
  | num (n : Int)
  | str (s : String)
  | arr (elems : List Json)
  | obj (fields : List (String × Json))
  deriving Repr

/-- Structural equality on JSON values. -/
def Json.beq : Json → Json → Bool
  | .null, .null => true
  | .bool a, .bool b => a == b
  | .num a, .num b => a == b
  | .str a, .str b => a == b
  | .arr a, .arr b => beqList a b
  | .obj a, .obj b => beqFields a b
  | _, _ => false
where
  beqList : List Json → List Json → Bool
    | [], [] => true
    | x :: xs, y :: ys => x.beq y && beqList xs ys
    | _, _ => false
  beqFields : List (String × Json) → List (String × Json) → Bool
    | [], [] => true
    | (k, v) :: xs, (l, w) :: ys => k == l && v.beq w && beqFields xs ys
    | _, _ => false

instance : BEq Json := ⟨Json.beq⟩

/-- JS truthiness of a JSON value (`undefined` is handled at use sites via
`Option`). -/
def jsTruthy : Json → Bool
  | .null => false
  | .bool b => b
  | .num n => n != 0
  | .str s => s ≠ ""
  | .arr _ => true
  | .obj _ => true

/-- JS property access `o[key]` on a parsed JSON object: with duplicate keys,
`JSON.parse` keeps the last occurrence. -/
def jsGet (fields : List (String × Json)) (key : String) : Option Json :=
  match fields with
  | [] => none
  | (k, v) :: fs =>
    match jsGet fs key with
    | some r => some r
    | none => if k = key then some v else none

-- ---------------------------------------------------------------------------
-- JSON serialization (JSON.stringify and the `canonicalize` package)
-- ---------------------------------------------------------------------------

/-- JSON string escaping of one character, as `JSON.stringify` emits it. -/
def escapeJsonChar (c : Char) : List Char :=
  if c = Char.ofNat 34 then [Char.ofNat 92, Char.ofNat 34]
  else if c = Char.ofNat 92 then [Char.ofNat 92, Char.ofNat 92]
  else if c = Char.ofNat 8 then [Char.ofNat 92, Char.ofNat 98]
  else if c = Char.ofNat 9 then [Char.ofNat 92, Char.ofNat 116]
  else if c = Char.ofNat 10 then [Char.ofNat 92, Char.ofNat 110]
  else if c = Char.ofNat 12 then [Char.ofNat 92, Char.ofNat 102]
  else if c = Char.ofNat 13 then [Char.ofNat 92, Char.ofNat 114]
  else if c.toNat < 32 then
    [Char.ofNat 92, Char.ofNat 117, '0', '0',
      hexDigitChar (c.toNat / 16), hexDigitChar (c.toNat % 16)]
  else [c]

/-- A JSON string literal (quotes and escapes) for a string value. -/
def quoteJsonString (s : String) : List Char :=
  Char.ofNat 34 :: (s.data.map escapeJsonChar).flatten ++ [Char.ofNat 34]

/-- Comma-join a list of character lists. -/
def joinComma (xs : List (List Char)) : List Char :=
  match xs with
  | [] => []
  | x :: rest => x ++ (rest.map (Char.ofNat 44 :: ·)).flatten

/-- Decimal digit characters of a natural number, most significant first
(fuel-indexed so it stays kernel-reducible; `n < fuel` suffices). -/
def natToDecChars : Nat → Nat → List Char
  | 0, _ => []
  | fuel + 1, n =>
    if n < 10 then [Char.ofNat (48 + n)]
    else natToDecChars fuel (n / 10) ++ [Char.ofNat (48 + n % 10)]

/-- The decimal rendering `JSON.stringify` emits for an integer. -/
def intToDecChars : Int → List Char
  | .ofNat m => natToDecChars (m + 1) m
  | .negSucc m => Char.ofNat 45 :: natToDecChars (m + 2) (m + 1)

/-- `JSON.stringify` (no spacing): order-preserving JSON text of a value. -/
def stringifyJson : Json → List Char
  | .null => [Char.ofNat 110, Char.ofNat 117, Char.ofNat 108, Char.ofNat 108]
  | .bool true => [Char.ofNat 116, Char.ofNat 114, Char.ofNat 117, Char.ofNat 101]
  | .bool false =>
    [Char.ofNat 102, Char.ofNat 97, Char.ofNat 108, Char.ofNat 115, Char.ofNat 101]
  | .num n => intToDecChars n
  | .str s => quoteJsonString s
  | .arr xs => Char.ofNat 91 :: joinComma (stringifyList xs) ++ [Char.ofNat 93]
  | .obj fs => Char.ofNat 123 :: joinComma (stringifyFields fs) ++ [Char.ofNat 125]
where
  stringifyList : List Json → List (List Char)
    | [] => []
    | x :: xs => stringifyJson x :: stringifyList xs
  stringifyFields : List (String × Json) → List (List Char)
    | [] => []
    | (k, v) :: fs =>
      (quoteJsonString k ++ [Char.ofNat 58] ++ stringifyJson v) :: stringifyFields fs

/-- Strict lexicographic order on character lists by code point (the
`canonicalize` package sorts keys by UTF-16 code units, which agrees with
code point order on the strings of interest). -/
def charListLt : List Char → List Char → Bool
  | [], [] => false
  | [], _ :: _ => true
  | _ :: _, [] => false
  | a :: as, b :: bs =>
    if a.toNat < b.toNat then true
    else if b.toNat < a.toNat then false
    else charListLt as bs

/-- Key order used when sorting object fields. -/
def keyLe (a b : String) : Bool :=
  !(charListLt b.data a.data)

/-- Insert a field into a key-sorted field list. -/
def insertField (p : String × Json) : List (String × Json) → List (String × Json)
  | [] => [p]
  | q :: qs => if keyLe p.1 q.1 then p :: q :: qs else q :: insertField p qs

/-- Sort a field list by key. -/
def sortFields (fs : List (String × Json)) : List (String × Json) :=
  fs.foldr insertField []

/-- Recursively sort all object keys in a JSON value. -/
def sortKeysDeep : Json → Json
  | .obj fs => .obj (sortFields (sortFieldsDeep fs))
  | .arr xs => .arr (sortListDeep xs)
  | j => j
where
  sortListDeep : List Json → List Json
    | [] => []
    | x :: xs => sortKeysDeep x :: sortListDeep xs
  sortFieldsDeep : List (String × Json) → List (String × Json)
    | [] => []
    | (k, v) :: fs => (k, sortKeysDeep v) :: sortFieldsDeep fs

/-- The `canonicalize` npm package (RFC 8785): key-sorted, spacing-free JSON
text.  The model `Json` type has no non-canonicalizable values (no cycles, no
non-finite numbers), so this never returns `undefined`. -/
def canonicalizeJson (j : Json) : String :=
  String.mk (stringifyJson (sortKeysDeep j))

-- ---------------------------------------------------------------------------
-- JSON parsing (JSON.parse)
-- ---------------------------------------------------------------------------

/-- Skip JSON whitespace. -/
def skipWs : List Char → List Char
  | c :: cs =>
    if c = Char.ofNat 32 ∨ c = Char.ofNat 9 ∨ c = Char.ofNat 10 ∨ c = Char.ofNat 13
    then skipWs cs else c :: cs
  | [] => []

/-- Parse exactly four hex digits. -/
def parseHex4 : List Char → Option (Nat × List Char)
  | c1 :: c2 :: c3 :: c4 :: rest =>
    match hexDigitVal? c1, hexDigitVal? c2, hexDigitVal? c3, hexDigitVal? c4 with
    | some a, some b, some c, some d => some (a * 4096 + b * 256 + c * 16 + d, rest)
    | _, _, _, _ => none
  | _ => none

/-- Parse the body of a JSON string literal after the opening quote. -/
def parseStringBody : Nat → List Char → Option (List Char × List Char)
  | 0, _ => none
  | _ + 1, [] => none
  | fuel + 1, c :: cs =>
    if c = Char.ofNat 34 then some ([], cs)
    else if c = Char.ofNat 92 then
      match cs with
      | [] => none
      | e :: cs2 =>
        if e = Char.ofNat 34 ∨ e = Char.ofNat 92 ∨ e = Char.ofNat 47 then
          (parseStringBody fuel cs2).map fun r => (e :: r.1, r.2)
        else if e = Char.ofNat 98 then
          (parseStringBody fuel cs2).map fun r => (Char.ofNat 8 :: r.1, r.2)
        else if e = Char.ofNat 102 then
          (parseStringBody fuel cs2).map fun r => (Char.ofNat 12 :: r.1, r.2)
        else if e = Char.ofNat 110 then
          (parseStringBody fuel cs2).map fun r => (Char.ofNat 10 :: r.1, r.2)
        else if e = Char.ofNat 114 then
          (parseStringBody fuel cs2).map fun r => (Char.ofNat 13 :: r.1, r.2)
        else if e = Char.ofNat 116 then
          (parseStringBody fuel cs2).map fun r => (Char.ofNat 9 :: r.1, r.2)
        else if e = Char.ofNat 117 then
          match parseHex4 cs2 with
          | some (n, cs3) =>
            (parseStringBody fuel cs3).map fun r => (Char.ofNat n :: r.1, r.2)
          | none => none
        else none
    else
      (parseStringBody fuel cs).map fun r => (c :: r.1, r.2)

/-- Parse a run of decimal digits. -/
def parseDigits : List Char → Option (Nat × List Char)
  | c :: cs =>
    if 48 ≤ c.toNat ∧ c.toNat ≤ 57 then
      match parseDigitsAux cs (c.toNat - 48) with
      | (n, rest) => some (n, rest)
    else none
  | [] => none
where
  parseDigitsAux : List Char → Nat → Nat × List Char
    | c :: cs, acc =>
      if 48 ≤ c.toNat ∧ c.toNat ≤ 57 then parseDigitsAux cs (acc * 10 + (c.toNat - 48))
      else (acc, c :: cs)
    | [], acc => (acc, [])

/-- One fuel level of the JSON grammar: parsing functions for a value, an
array tail, an object member, and an object tail.  A single structural
recursion on fuel keeps everything kernel-reducible. -/
def parseFns : Nat →
    (List Char → Option (Json × List Char)) ×
    (List Char → Option (List Json × List Char)) ×
    (List Char → Option ((String × Json) × List Char)) ×
    (List Char → Option (List (String × Json) × List Char))
  | 0 => (fun _ => none, fun _ => none, fun _ => none, fun _ => none)
  | fuel + 1 =>
    let P := parseFns fuel
    let pVal := fun (input : List Char) =>
      match skipWs input with
      | [] => none
      | c :: cs =>
        if c = Char.ofNat 34 then
          (parseStringBody (cs.length + 1) cs).map fun r => (Json.str (String.mk r.1), r.2)
        else if c = Char.ofNat 116 then
          match cs with
          | c2 :: c3 :: c4 :: rest =>
            if c2 = Char.ofNat 114 ∧ c3 = Char.ofNat 117 ∧ c4 = Char.ofNat 101 then
              some (Json.bool true, rest)
            else none
          | _ => none
        else if c = Char.ofNat 102 then
          match cs with
          | c2 :: c3 :: c4 :: c5 :: rest =>
            if c2 = Char.ofNat 97 ∧ c3 = Char.ofNat 108 ∧ c4 = Char.ofNat 115 ∧
                c5 = Char.ofNat 101 then
              some (Json.bool false, rest)
            else none
          | _ => none
        else if c = Char.ofNat 110 then
          match cs with
          | c2 :: c3 :: c4 :: rest =>
            if c2 = Char.ofNat 117 ∧ c3 = Char.ofNat 108 ∧ c4 = Char.ofNat 108 then
              some (Json.null, rest)
            else none
          | _ => none
        else if c = Char.ofNat 45 then
          (parseDigits cs).map fun r => (Json.num (-(r.1 : Int)), r.2)
        else if 48 ≤ c.toNat ∧ c.toNat ≤ 57 then
          (parseDigits (c :: cs)).map fun r => (Json.num (r.1 : Int), r.2)
        else if c = Char.ofNat 91 then
          match skipWs cs with
          | d :: ds =>
            if d = Char.ofNat 93 then some (Json.arr [], ds)
            else
              match P.1 (d :: ds) with
              | some (v, rest) =>
                (P.2.1 rest).map fun r => (Json.arr (v :: r.1), r.2)
              | none => none
          | [] => none
        else if c = Char.ofNat 123 then
          match skipWs cs with
          | d :: ds =>
            if d = Char.ofNat 125 then some (Json.obj [], ds)
            else
              match P.2.2.1 (d :: ds) with
              | some (kv, rest) =>
                (P.2.2.2 rest).map fun r => (Json.obj (kv :: r.1), r.2)
              | none => none
          | [] => none
        else none
    let pArrTail := fun (input : List Char) =>
      match skipWs input with
      | c :: cs =>
        if c = Char.ofNat 93 then some ([], cs)
        else if c = Char.ofNat 44 then
          match P.1 cs with
          | some (v, rest) => (P.2.1 rest).map fun r => (v :: r.1, r.2)
          | none => none
        else none
      | [] => none
    let pMember := fun (input : List Char) =>
      match skipWs input with
      | c :: cs =>
        if c = Char.ofNat 34 then
          match parseStringBody (cs.length + 1) cs with
          | some (k, rest) =>
            match skipWs rest with
            | d :: ds =>
              if d = Char.ofNat 58 then
                (P.1 ds).map fun r => ((String.mk k, r.1), r.2)
              else none
            | [] => none
          | none => none
        else none
      | [] => none
    let pObjTail := fun (input : List Char) =>
      match skipWs input with
      | c :: cs =>
        if c = Char.ofNat 125 then some ([], cs)
        else if c = Char.ofNat 44 then
          match P.2.2.1 cs with
          | some (kv, rest) => (P.2.2.2 rest).map fun r => (kv :: r.1, r.2)
          | none => none
        else none
      | [] => none
    (pVal, pArrTail, pMember, pObjTail)

/-- Parse one JSON value with the given fuel. -/
def parseVal (fuel : Nat) (input : List Char) : Option (Json × List Char) :=
  (parseFns fuel).1 input

/-- `JSON.parse`: parse a complete JSON text (integer-numeric fragment). -/
def jsonParse (s : String) : Option Json :=
  match parseVal (2 * s.data.length + 4) s.data with
  | some (v, rest) => if skipWs rest = [] then some v else none
  | none => none

-- ---------------------------------------------------------------------------
-- keccak-256 (external primitive from @noble/hashes)
-- ---------------------------------------------------------------------------

/-- Executable stand-in for the external keccak-256 primitive: a
deterministic function from bytes to a 32-byte digest.  The claims use the
hash only as an opaque deterministic function; none depends on the actual
Keccak permutation. -/
def keccak_256 (data : Bytes) : Bytes :=
  (List.range 32).map fun i =>
    data.foldl (fun acc b => (acc * 131 + b + 17) % 251) ((i * 37 + 11) % 251)

-- ---------------------------------------------------------------------------
-- capsule.ts — validation, serialization, deserialization
-- ---------------------------------------------------------------------------

/-- `assertValidCapsule` from capsule.ts: protocol-level shape check only.
A capsule must be a non-null object, `version` a non-empty string, `payload`
a non-null non-array object. -/
def assertValidCapsule (capsule : Json) : Except Err Unit :=
  match capsule with
  | .obj fields =>
    match jsGet fields "version" with
    | some (.str v) =>
      if v.length = 0 then .error (.validationError "version")
      else
        match jsGet fields "payload" with
        | some (.obj _) => .ok ()
        | _ => .error (.validationError "payload")
    | _ => .error (.validationError "version")
  | .arr _ => .error (.validationError "version")
  | _ => .error (.validationError "capsule")

/-- `canonicalBytes`: UTF-8 bytes of the RFC 8785 canonical JSON text. -/
def canonicalBytes (value : Json) : Bytes :=
  utf8Encode (canonicalizeJson value)

/-- `serializeCapsule`: validate, then canonical JSON bytes. -/
def serializeCapsule (capsule : Json) : Except Err Bytes :=
  match assertValidCapsule capsule with
  | .error e => .error e
  | .ok _ => .ok (canonicalBytes capsule)

/-- `deserializeCapsule`: UTF-8 decode, `JSON.parse`, validate. -/
def deserializeCapsule (bytes : Bytes) : Except Err Json :=
  match utf8Decode bytes with
  | none => .error .parseError
  | some s =>
    match jsonParse s with
    | none => .error .parseError
    | some j =>
      match assertValidCapsule j with
      | .error e => .error e
      | .ok _ => .ok j

/-- `serializeCanonical`: canonical JSON bytes of any value. -/
def serializeCanonical (value : Json) : Bytes :=
  canonicalBytes value

-- ---------------------------------------------------------------------------
-- commitment.ts — commitment hashing
-- ---------------------------------------------------------------------------

/-- `hashBytes`: 0x-prefixed hex of the keccak-256 digest. -/
def hashBytes (data : Bytes) : String :=
  toHex (keccak_256 data)

/-- `computeStateCommitment`: `keccak256(canonicalize(capsule))` (propagates
the validation failure of `serializeCapsule`). -/
def computeStateCommitment (capsule : Json) : Except Err String :=
  (serializeCapsule capsule).map hashBytes

/-- `computeMetadataHash`: keccak-256 over canonical JSON of any value. -/
def computeMetadataHash (value : Json) : String :=
  hashBytes (serializeCanonical value)

/-- `computeCiphertextHash`: keccak-256 of raw ciphertext bytes. -/
def computeCiphertextHash (ciphertext : Bytes) : String :=
  hashBytes ciphertext

-- ---------------------------------------------------------------------------
-- encryption.ts — AES-256-GCM model and NaCl box model
-- ---------------------------------------------------------------------------

/-- AES-256-GCM IV length in bytes. -/
def IV_LENGTH : Nat := 12

/-- AES-256-GCM auth tag length in bytes. -/
def AUTH_TAG_LENGTH : Nat := 16

/-- Required symmetric key length in bytes. -/
def KEY_LENGTH : Nat := 32

/-- Absorb bytes into an accumulator (mixing helper for the cipher models). -/
def absorb (seed : Nat) (bs : Bytes) : Nat :=
  bs.foldl (fun a b => (a * 131 + b + 1) % 65521) seed

/-- Keystream of the modelled AES-256-GCM cipher (bytes `< 256`). -/
def gcmKeystream (key iv : Bytes) (n : Nat) : Bytes :=
  (List.range n).map fun i =>
    (key.getD (i % KEY_LENGTH) 0 + iv.getD (i % IV_LENGTH) 0 + i) % 256

/-- Modelled GCM encryption core (keyed invertible byte transformation). -/
def gcmCipher (key iv p : Bytes) : Bytes :=
  List.zipWith (fun a b => (a + b) % 256) p (gcmKeystream key iv p.length)

/-- Modelled GCM decryption core (inverse of `gcmCipher` on byte values). -/
def gcmDecipher (key iv c : Bytes) : Bytes :=
  List.zipWith (fun a b => (a + 256 - b % 256) % 256) c (gcmKeystream key iv c.length)

/-- Modelled GCM authentication tag: 16 bytes keyed over key, IV and
ciphertext. -/
def gcmTag (key iv ct : Bytes) : Bytes :=
  (List.range AUTH_TAG_LENGTH).map fun i =>
    (absorb (absorb (absorb (i * 97 + 29) key) iv) ct) % 256

/-- `encrypt` from encryption.ts.  The random IV is an explicit parameter;
output layout is IV(12) ‖ ciphertext ‖ tag(16); a key that is not exactly 32
bytes is rejected. -/
def encrypt (plaintext key iv : Bytes) : Except Err Bytes :=
  if key.length ≠ KEY_LENGTH then .error (.invalidKeyLength key.length)
  else
    .ok (iv ++ gcmCipher key iv plaintext ++ gcmTag key iv (gcmCipher key iv plaintext))

/-- `decrypt` from encryption.ts: key-length guard, minimum-length guard
(28 bytes = IV + tag), slicing per the fixed layout, then authenticated
decryption; a failing tag check is the authentication failure. -/
def decrypt (sealed key : Bytes) : Except Err Bytes :=
  if key.length ≠ KEY_LENGTH then .error (.invalidKeyLength key.length)
  else if sealed.length < IV_LENGTH + AUTH_TAG_LENGTH then .error (.tooShort sealed.length)
  else
    let iv := sealed.take IV_LENGTH
    let authTag := sealed.drop (sealed.length - AUTH_TAG_LENGTH)
    let ciphertext := (sealed.take (sealed.length - AUTH_TAG_LENGTH)).drop IV_LENGTH
    if gcmTag key iv ciphertext = authTag then .ok (gcmDecipher key iv ciphertext)
    else .error .authenticationFailed

/-- `KeyEnvelope` from types.ts. -/
structure KeyEnvelope where
  checkpointId : String
  wrappedKey : Bytes
  nonce : Bytes
  senderPublicKey : Bytes
  deriving DecidableEq, Repr

/-- Model of `nacl.box.keyPair.fromSecretKey(sec).publicKey`: an injective
derivation of the public key from the secret key. -/
def naclDerivePublicKey (sec : Bytes) : Bytes :=
  sec.map fun b => (b + 9) % 256

/-- Model of the X25519 shared secret: symmetric in the two key pairs. -/
def naclShared (pub sec : Bytes) : Bytes :=
  List.zipWith (fun p s => (p + s) % 256) pub sec

/-- Keystream of the modelled box cipher. -/
def boxKeystream (shared nonce : Bytes) (n : Nat) : Bytes :=
  (List.range n).map fun i =>
    (shared.getD (i % 32) 0 + nonce.getD (i % 24) 0 + i * 3) % 256

/-- Modelled box authentication tag over the ciphertext. -/
def boxTag (shared nonce ct : Bytes) : Bytes :=
  (List.range 16).map fun i =>
    (absorb (absorb (absorb (i * 89 + 41) shared) nonce) ct) % 256

/-- Model of `nacl.box`: tag(16) ‖ transformed message. -/
def naclBox (msg nonce pub sec : Bytes) : Bytes :=
  let shared := naclShared pub sec
  let ct := List.zipWith (fun a b => (a + b) % 256) msg (boxKeystream shared nonce msg.length)
  boxTag shared nonce ct ++ ct

/-- Model of `nacl.box.open`: authenticate, then invert; `none` on failure. -/
def naclBoxOpen (boxed nonce pub sec : Bytes) : Option Bytes :=
  let shared := naclShared pub sec
  let tag := boxed.take 16
  let ct := boxed.drop 16
  if boxTag shared nonce ct = tag then
    some (List.zipWith (fun a b => (a + 256 - b % 256) % 256) ct
      (boxKeystream shared nonce ct.length))
  else none

/-- `wrapKey` from encryption.ts.  The random nonce is an explicit
parameter; the sender public key embedded in the envelope is derived from
the sender secret key; `checkpointId` is set to the empty string, to be
populated by the caller after on-chain publication. -/
def wrapKey (contentKey recipientPublicKey senderSecretKey nonce : Bytes) : KeyEnvelope :=
  { checkpointId := ""
    wrappedKey := naclBox contentKey nonce recipientPublicKey senderSecretKey
    nonce := nonce
    senderPublicKey := naclDerivePublicKey senderSecretKey }

/-- `unwrapKey` from encryption.ts: a single opaque failure on bad
authentication. -/
def unwrapKey (envelope : KeyEnvelope) (recipientSecretKey : Bytes) : Except Err Bytes :=
  match naclBoxOpen envelope.wrappedKey envelope.nonce envelope.senderPublicKey
      recipientSecretKey with
  | some contentKey => .ok contentKey
  | none => .error .unwrapFailed

-- ---------------------------------------------------------------------------
-- verify.ts — commitment verification and lineage
-- ---------------------------------------------------------------------------

/-- The zero bytes32 constant from abi.ts. -/
def ZERO_BYTES32 : String :=
  String.mk ('0' :: 'x' :: List.replicate 64 '0')

/-- `verifyStateCommitment`: recompute, compare case-insensitively, throw a
mismatch error carrying both digests on inequality — never `false`. -/
def verifyStateCommitment (capsule : Json) (expectedCommitment : String) :
    Except Err Bool :=
  match computeStateCommitment capsule with
  | .error e => .error e
  | .ok computed =>
    if jsLower computed = jsLower expectedCommitment then .ok true
    else .error (.commitmentMismatch computed expectedCommitment)

/-- `verifyCiphertextHash`: recompute, compare case-insensitively, throw a
mismatch error carrying both digests on inequality — never `false`. -/
def verifyCiphertextHash (ciphertext : Bytes) (expectedHash : String) :
    Except Err Bool :=
  let computed := computeCiphertextHash ciphertext
  if jsLower computed = jsLower expectedHash then .ok true
  else .error (.commitmentMismatch computed expectedHash)

/-- `CheckpointRecord` from types.ts. -/
structure CheckpointRecord where
  checkpointId : String
  predecessorId : String
  stateCommitment : String
  ciphertextHash : String
  ciphertextUri : String
  manifestHash : String
  publishedAt : Nat
  blockNumber : Nat
  deriving DecidableEq, Repr

/-- The chaining loop of `verifyCheckpointLineage` from index 1 on. -/
def lineageLoop (prev : CheckpointRecord) (rest : List CheckpointRecord) (i : Nat) :
    Except Err Bool :=
  match rest with
  | [] => .ok true
  | curr :: more =>
    if jsLower curr.predecessorId ≠ jsLower prev.checkpointId then
      .error (.lineageBroken i)
    else lineageLoop curr more (i + 1)

/-- `verifyCheckpointLineage` from verify.ts: empty is valid; the first
record must have the zero predecessor; each later record must chain from its
predecessor (case-insensitive). -/
def verifyCheckpointLineage (checkpoints : List CheckpointRecord) : Except Err Bool :=
  match checkpoints with
  | [] => .ok true
  | first :: rest =>
    if jsLower first.predecessorId ≠ ZERO_BYTES32 then
      .error (.genesisPredecessorNotZero first.predecessorId)
    else lineageLoop first rest 1

/-- `verifyAndDecrypt` from verify.ts: hash check, decrypt, deserialize,
state-commitment check. -/
def verifyAndDecrypt (ciphertext key : Bytes)
    (expectedStateCommitment expectedCiphertextHash : String) : Except Err Json :=
  match verifyCiphertextHash ciphertext expectedCiphertextHash with
  | .error e => .error e
  | .ok _ =>
    match decrypt ciphertext key with
    | .error e => .error e
    | .ok plaintext =>
      match deserializeCapsule plaintext with
      | .error e => .error e
      | .ok capsule =>
        match verifyStateCommitment capsule expectedStateCommitment with
        | .error e => .error e
        | .ok _ => .ok capsule

-- ---------------------------------------------------------------------------
-- sealed.ts — seal / unseal
-- ---------------------------------------------------------------------------

/-- `SealedCapsule` from types.ts. -/
structure SealedCapsule where
  ciphertext : Bytes
  contentHash : String
  stateCommitment : String
  metadataHash : String
  encryptionKey : Bytes
  deriving DecidableEq, Repr

/-- `seal` from sealed.ts (`seal` is a Lean keyword, hence the name):
serialize, commit, encrypt.  The generated content key and random IV are
explicit parameters; `metadata ? ... : zero` is JS truthiness on the
optional metadata value. -/
def sealCapsule (capsule : Json) (metadata : Option Json) (encryptionKey iv : Bytes) :
    Except Err SealedCapsule :=
  match serializeCapsule capsule with
  | .error e => .error e
  | .ok plaintext =>
    match computeStateCommitment capsule with
    | .error e => .error e
    | .ok stateCommitment =>
      let metadataHash :=
        match metadata with
        | some m => if jsTruthy m then computeMetadataHash m else ZERO_BYTES32
        | none => ZERO_BYTES32
      match encrypt plaintext encryptionKey iv with
      | .error e => .error e
      | .ok ciphertext =>
        .ok { ciphertext := ciphertext
              contentHash := computeCiphertextHash ciphertext
              stateCommitment := stateCommitment
              metadataHash := metadataHash
              encryptionKey := encryptionKey }

/-- `unseal` from sealed.ts (`unseal` is a Lean keyword, hence the name):
optional hash check (JS truthiness on the optional string), decrypt,
deserialize, optional state-commitment check. -/
def unsealCapsule (ciphertext key : Bytes) (stateCommitment ciphertextHash : Option String) :
    Except Err Json :=
  let hashGate : Except Err Bool :=
    match ciphertextHash with
    | some h => if h ≠ "" then verifyCiphertextHash ciphertext h else .ok true
    | none => .ok true
  match hashGate with
  | .error e => .error e
  | .ok _ =>
    match decrypt ciphertext key with
    | .error e => .error e
    | .ok plaintext =>
      match deserializeCapsule plaintext with
      | .error e => .error e
      | .ok capsule =>
        let stateGate : Except Err Bool :=
          match stateCommitment with
          | some c => if c ≠ "" then verifyStateCommitment capsule c else .ok true
          | none => .ok true
        match stateGate with
        | .error e => .error e
        | .ok _ => .ok capsule

-- ---------------------------------------------------------------------------
-- keyDelivery.ts — envelope id, envelope codec, PublisherKeyManager
-- ---------------------------------------------------------------------------

/-- `computeEnvelopeId`: keccak-256 of the lowercase colon-joined triple,
as 0x-prefixed lowercase hex. -/
def computeEnvelopeId (tokenAddress checkpointId consumerAddress : String) : String :=
  let input :=
    jsLower tokenAddress ++ ":" ++ jsLower checkpointId ++ ":" ++ jsLower consumerAddress
  toHex (keccak_256 (utf8Encode input))

/-- The key store of a publisher key manager. -/
abbrev KeyStore := List (String × Bytes)

/-- `Map.set`: overwrite an existing binding or append a new one. -/
def mapSet (m : KeyStore) (k : String) (v : Bytes) : KeyStore :=
  if m.any (fun p => p.1 = k) then m.map (fun p => if p.1 = k then (k, v) else p)
  else m ++ [(k, v)]

/-- `Map.get`. -/
def mapGet (m : KeyStore) (k : String) : Option Bytes :=
  (m.find? (fun p => p.1 = k)).map (·.2)

/-- `Map.has`. -/
def mapHas (m : KeyStore) (k : String) : Bool :=
  m.any (fun p => p.1 = k)

/-- The envelope-store request a key manager hands to its delivery provider
(`delivery.storeEnvelope` parameters). -/
structure StoredEnvelope where
  tokenAddress : String
  checkpointId : String
  consumerAddress : String
  envelope : KeyEnvelope
  deriving DecidableEq, Repr

namespace PublisherKeyManager

/-- `PublisherKeyManager.storeKey`: store under the lowercased id. -/
def storeKey (keys : KeyStore) (checkpointId : String) (key : Bytes) : KeyStore :=
  mapSet keys (jsLower checkpointId) key

/-- `PublisherKeyManager.hasKey`: look up the lowercased id. -/
def hasKey (keys : KeyStore) (checkpointId : String) : Bool :=
  mapHas keys (jsLower checkpointId)

/-- `PublisherKeyManager.fulfillRedemption`: look up K under the lowercased
id, require a 32-byte consumer key, wrap K (fresh nonce made explicit),
stamp the envelope with the fulfilled checkpoint id, and hand it to the
delivery provider. -/
def fulfillRedemption (keys : KeyStore) (senderSecretKey : Bytes)
    (tokenAddress checkpointId consumerAddress : String)
    (consumerPublicKey nonce : Bytes) : Except Err StoredEnvelope :=
  let normalizedId := jsLower checkpointId
  match mapGet keys normalizedId with
  | none => .error (.noKeyStored checkpointId)
  | some K =>
    if consumerPublicKey.length ≠ 32 then .error (.badConsumerKey consumerPublicKey.length)
    else
      let envelope := wrapKey K consumerPublicKey senderSecretKey nonce
      let envelope := { envelope with checkpointId := checkpointId }
      .ok { tokenAddress := tokenAddress, checkpointId := checkpointId,
            consumerAddress := consumerAddress, envelope := envelope }

/-- `PublisherKeyManager.exportKeys`: hex map of the raw keys. -/
def exportKeys (keys : KeyStore) : List (String × String) :=
  keys.map fun p => (p.1, toHex p.2)

/-- `PublisherKeyManager.importKeys`: set each entry under the lowercased
id (`fromHex` is total, so the whole import is). -/
def importKeys (keys : KeyStore) : List (String × String) → KeyStore
  | [] => keys
  | (id, hex) :: rest => importKeys (mapSet keys (jsLower id) (fromHex hex)) rest

end PublisherKeyManager

-- ---------------------------------------------------------------------------
-- onChainKeyDelivery.ts — OnChainPublisherKeyManager
-- ---------------------------------------------------------------------------

namespace OnChainPublisherKeyManager

/-- `OnChainPublisherKeyManager.storeKey`: store under the lowercased id. -/
def storeKey (keys : KeyStore) (checkpointId : String) (key : Bytes) : KeyStore :=
  mapSet keys (jsLower checkpointId) key

/-- `OnChainPublisherKeyManager.hasKey`: look up the lowercased id. -/
def hasKey (keys : KeyStore) (checkpointId : String) : Bool :=
  mapHas keys (jsLower checkpointId)

/-- `OnChainPublisherKeyManager.fulfillRedemption`: identical logic to the
off-chain manager, delivering through `OnChainKeyDelivery.storeEnvelope`. -/
def fulfillRedemption (keys : KeyStore) (senderSecretKey : Bytes)
    (tokenAddress checkpointId consumerAddress : String)
    (consumerPublicKey nonce : Bytes) : Except Err StoredEnvelope :=
  let normalizedId := jsLower checkpointId
  match mapGet keys normalizedId with
  | none => .error (.noKeyStored checkpointId)
  | some K =>
    if consumerPublicKey.length ≠ 32 then .error (.badConsumerKey consumerPublicKey.length)
    else
      let envelope := wrapKey K consumerPublicKey senderSecretKey nonce
      let envelope := { envelope with checkpointId := checkpointId }
      .ok { tokenAddress := tokenAddress, checkpointId := checkpointId,
            consumerAddress := consumerAddress, envelope := envelope }

end OnChainPublisherKeyManager

-- ---------------------------------------------------------------------------
-- explorer.ts — MindstateExplorer.getLineage
-- ---------------------------------------------------------------------------

/-- The tuple the `getCheckpoint` contract view returns.  A checkpoint the
chain does not know yields the all-zero struct, i.e. `publishedAt = 0`. -/
structure ChainCheckpoint where
  predecessorId : String
  stateCommitment : String
  ciphertextHash : String
  ciphertextUri : String
  manifestHash : String
  publishedAt : Nat
  blockNumber : Nat
  deriving DecidableEq, Repr

/-- `parseCheckpointFromContract` from explorer.ts. -/
def parseCheckpointFromContract (checkpointId : String) (cp : ChainCheckpoint) :
    CheckpointRecord :=
  { checkpointId := checkpointId
    predecessorId := cp.predecessorId
    stateCommitment := cp.stateCommitment
    ciphertextHash := cp.ciphertextHash
    ciphertextUri := cp.ciphertextUri
    manifestHash := cp.manifestHash
    publishedAt := cp.publishedAt
    blockNumber := cp.blockNumber }

/-- The loop of `MindstateExplorer.getLineage`.  The external record source
is an oracle `getCp`; the fuel is the remaining capacity
`maxDepth - lineage.length` of the `while` guard.  Returns the walk result
together with the number of `getCheckpoint` lookups performed. -/
def getLineageAux (getCp : String → ChainCheckpoint) :
    Nat → String → List String → Except Err (List CheckpointRecord) × Nat
  | 0, _, _ => (.ok [], 0)
  | fuel + 1, currentId, visited =>
    if currentId = ZERO_BYTES32 then (.ok [], 0)
    else
      let normalizedId := jsLower currentId
      if visited.any (fun v => v = normalizedId) then
        (.error (.lineageCycle currentId), 0)
      else
        let cp := getCp currentId
        if cp.publishedAt = 0 then (.error (.checkpointNotFound currentId), 1)
        else
          match getLineageAux getCp fuel cp.predecessorId (normalizedId :: visited) with
          | (res, n) =>
            (res.map (parseCheckpointFromContract currentId cp :: ·), n + 1)

/-- `MindstateExplorer.getLineage`: walk the predecessor chain from a
checkpoint, visited-set cycle detection, bounded by `maxDepth`. -/
def getLineage (getCp : String → ChainCheckpoint) (checkpointId : String)
    (maxDepth : Nat) : Except Err (List CheckpointRecord) × Nat :=
  getLineageAux getCp maxDepth checkpointId []

-- ---------------------------------------------------------------------------
-- client.ts — MindstateClient.consume
-- ---------------------------------------------------------------------------

/-- External-collaborator calls `consume` makes, in order, as trace events. -/
inductive ConsumeEvent where
  | hasRedeemedCall (result : Bool)
  | fetchEnvelopeCall (ok : Bool)
  | redeemCall
  | getCheckpointCall
  | downloadCall
  deriving DecidableEq, Repr

/-- Responses of the external collaborators of one `consume` run: the
signer, the token contract (`hasRedeemed`, `redeem`, `getCheckpoint`), the
key-delivery provider (`fetchEnvelope`) and the storage provider
(`download`). -/
structure ConsumeDeps where
  signerAddress : Option String
  hasRedeemedRes : Bool
  fetchEnvelopeRes : Except Unit KeyEnvelope
  redeemRes : Except Unit Unit
  checkpoint : ChainCheckpoint
  downloadRes : Except Unit Bytes
  secretKey : Bytes

/-- Steps 4-11 of `consume`: read the checkpoint record, download the
ciphertext, verify its hash, unwrap the content key, decrypt, deserialize,
verify the state commitment. -/
def consumeRest (deps : ConsumeDeps) (checkpointId : String)
    (keyEnvelope : KeyEnvelope) (ev : List ConsumeEvent) :
    Except Err (Json × CheckpointRecord) × List ConsumeEvent :=
  let checkpoint := parseCheckpointFromContract checkpointId deps.checkpoint
  let ev := ev ++ [ConsumeEvent.getCheckpointCall]
  match deps.downloadRes with
  | .error _ => (.error .downloadFailed, ev ++ [ConsumeEvent.downloadCall])
  | .ok ciphertext =>
    let ev := ev ++ [ConsumeEvent.downloadCall]
    match verifyCiphertextHash ciphertext checkpoint.ciphertextHash with
    | .error e => (.error e, ev)
    | .ok _ =>
      match unwrapKey keyEnvelope deps.secretKey with
      | .error e => (.error e, ev)
      | .ok contentKey =>
        match decrypt ciphertext contentKey with
        | .error e => (.error e, ev)
        | .ok plaintext =>
          match deserializeCapsule plaintext with
          | .error e => (.error e, ev)
          | .ok capsule =>
            match verifyStateCommitment capsule checkpoint.stateCommitment with
            | .error e => (.error e, ev)
            | .ok _ => (.ok (capsule, checkpoint), ev)

/-- `MindstateClient.consume`: requires a signer; checks `hasRedeemed`; when
not yet redeemed, pre-flight-fetches the key envelope BEFORE redeeming and
fails fast with the envelope-not-yet-available error if the fetch rejects;
when already redeemed, fetches directly (a fetch failure there propagates
as-is); then proceeds with download/verify/decrypt. -/
def consume (deps : ConsumeDeps) (checkpointId : String) :
    Except Err (Json × CheckpointRecord) × List ConsumeEvent :=
  match deps.signerAddress with
  | none => (.error .noSigner, [])
  | some _ =>
    let ev0 := [ConsumeEvent.hasRedeemedCall deps.hasRedeemedRes]
    if deps.hasRedeemedRes = false then
      match deps.fetchEnvelopeRes with
      | .error _ =>
        (.error .envelopeNotYetAvailable, ev0 ++ [ConsumeEvent.fetchEnvelopeCall false])
      | .ok keyEnvelope =>
        let ev1 := ev0 ++ [ConsumeEvent.fetchEnvelopeCall true]
        match deps.redeemRes with
        | .error _ => (.error .redeemFailed, ev1 ++ [ConsumeEvent.redeemCall])
        | .ok _ =>
          consumeRest deps checkpointId keyEnvelope (ev1 ++ [ConsumeEvent.redeemCall])
    else
      match deps.fetchEnvelopeRes with
      | .error _ =>
        (.error .envelopeFetchFailed, ev0 ++ [ConsumeEvent.fetchEnvelopeCall false])
      | .ok keyEnvelope =>
        consumeRest deps checkpointId keyEnvelope
          (ev0 ++ [ConsumeEvent.fetchEnvelopeCall true])

-- ---------------------------------------------------------------------------
-- Auxiliary definitions used to state the claims
-- ---------------------------------------------------------------------------

/-- The straight-line predecessor iteration of the external record source:
`chainIterate getCp k start` is the identifier reached after `k` predecessor
steps from `start`. -/
def chainIterate (getCp : String → ChainCheckpoint) : Nat → String → String
  | 0, s => s
  | n + 1, s => chainIterate getCp n (getCp s).predecessorId

/-- Every key of the store is a lowercased identifier. -/
def storesLowercasedKeys (m : KeyStore) : Prop :=
  ∀ p ∈ m, ∃ x, p.1 = jsLower x

/-- A concrete malicious record source forming a two-cycle. -/
def cycSource (s : String) : ChainCheckpoint :=
  if s = "0xa" then
    { predecessorId := "0xb", stateCommitment := "", ciphertextHash := "",
      ciphertextUri := "", manifestHash := "", publishedAt := 1, blockNumber := 1 }
  else if s = "0xb" then
    { predecessorId := "0xa", stateCommitment := "", ciphertextHash := "",
      ciphertextUri := "", manifestHash := "", publishedAt := 2, blockNumber := 2 }
  else
    { predecessorId := "", stateCommitment := "", ciphertextHash := "",
      ciphertextUri := "", manifestHash := "", publishedAt := 0, blockNumber := 0 }

/-- A concrete run whose key envelope is not yet deliverable: the pre-flight
fetch rejects. -/
def depsPreflightFail : ConsumeDeps :=
  ⟨some "0xme", false, .error (), .ok (), ⟨"", "", "", "", "", 1, 1⟩, .ok [], []⟩

/-- Whether a character list starts with a decimal digit (the one lookahead
`parseDigits` is greedy over). -/
def digitStart : List Char → Bool
  | c :: _ => 48 ≤ c.toNat && c.toNat ≤ 57
  | [] => false

/-- The text of one object member, `"key":value`. -/
def memberChars (kv : String × Json) : List Char :=
  quoteJsonString kv.1 ++ Char.ofNat 58 :: stringifyJson kv.2

/-- The text of an array tail after the first element: `,v` repeated, then
the closing bracket. -/
def arrTailChars (xs : List Json) : List Char :=
  (xs.map (fun v => Char.ofNat 44 :: stringifyJson v)).flatten ++ [Char.ofNat 93]

/-- The text of an object tail after the first member: `,"k":v` repeated,
then the closing brace. -/
def objTailChars (fs : List (String × Json)) : List Char :=
  (fs.map (fun kv => Char.ofNat 44 :: memberChars kv)).flatten ++ [Char.ofNat 125]

/-- Fuel sufficient for `parseFns` to parse the serialized form of a value
(`needList` for an array tail, `needFields` for an object tail). -/
def needFuel : Json → Nat
  | .arr xs => needList xs
  | .obj fs => needFields fs
  | _ => 1
where
  needList : List Json → Nat
    | [] => 1
    | x :: xs => 1 + max (needFuel x) (needList xs)
  needFields : List (String × Json) → Nat
    | [] => 1
    | (_, v) :: fs => 1 + max (1 + needFuel v) (needFields fs)

-- ===========================================================================
-- Claims
-- ===========================================================================

-- Helper lemmas shared by the round-trip claims ------------------------------

/-- Code points are below 0x110000. -/
theorem char_toNat_lt_size (c : Char) : c.toNat < 1114112 := by
  rcases c.valid with h | h
  · exact lt_trans h (by norm_num)
  · exact h.2

/-- Every byte of the UTF-8 encoding of one character is below 256. -/
theorem utf8EncodeChar_lt (c : Char) : ∀ b ∈ utf8EncodeChar c, b < 256 := by
  have h := char_toNat_lt_size c
  intro b hb
  simp only [utf8EncodeChar] at hb
  split_ifs at hb with h1 h2 h3
  · simp at hb; omega
  · simp at hb; rcases hb with rfl | rfl <;> omega
  · simp at hb; rcases hb with rfl | rfl | rfl <;> omega
  · simp at hb; rcases hb with rfl | rfl | rfl | rfl <;> omega

/-- Every byte of the UTF-8 encoding of a string is below 256. -/
theorem utf8Encode_lt (s : String) : ∀ b ∈ utf8Encode s, b < 256 := by
  intro b hb
  rcases List.mem_flatten.mp hb with ⟨l, hl, hbl⟩
  rcases List.mem_map.mp hl with ⟨c, _, rfl⟩
  exact utf8EncodeChar_lt c b hbl

/-- The UTF-8 decoder inverts the encoder (with any sufficient fuel). -/
theorem utf8DecodeAux_encode :
    ∀ (cs : List Char) (fuel : Nat),
      ((cs.map utf8EncodeChar).flatten).length ≤ fuel →
      utf8DecodeAux fuel ((cs.map utf8EncodeChar).flatten) = some cs := by
  intro cs
  induction cs with
  | nil => intro fuel h; cases fuel <;> rfl
  | cons c cs ih =>
    intro fuel h
    have hc := char_toNat_lt_size c
    rw [List.map_cons, List.flatten_cons] at h ⊢
    simp only [utf8EncodeChar] at h ⊢
    split_ifs at h ⊢ with h1 h2 h3
    · simp only [List.cons_append, List.nil_append] at h ⊢
      simp only [List.length_cons] at h
      cases fuel with
      | zero => omega
      | succ f =>
        simp only [utf8DecodeAux]
        rw [if_pos h1, ih f (by omega)]
        simp [Char.ofNat_toNat]
    · simp only [List.cons_append, List.nil_append] at h ⊢
      simp only [List.length_cons] at h
      cases fuel with
      | zero => omega
      | succ f =>
        simp only [utf8DecodeAux]
        rw [if_neg (by omega), if_neg (by omega), if_pos (by omega)]
        rw [if_pos (by constructor <;> omega)]
        rw [ih f (by omega)]
        have harg : (0xC0 + c.toNat / 64 - 0xC0) * 64 + (0x80 + c.toNat % 64 - 0x80) =
            c.toNat := by omega
        rw [harg, Char.ofNat_toNat]
        rfl
    · simp only [List.cons_append, List.nil_append] at h ⊢
      simp only [List.length_cons] at h
      cases fuel with
      | zero => omega
      | succ f =>
        simp only [utf8DecodeAux]
        rw [if_neg (by omega), if_neg (by omega), if_neg (by omega), if_pos (by omega)]
        rw [if_pos (by refine ⟨⟨?_, ?_⟩, ?_, ?_⟩ <;> omega)]
        rw [ih f (by omega)]
        have harg : (0xE0 + c.toNat / 4096 - 0xE0) * 4096 +
            (0x80 + c.toNat / 64 % 64 - 0x80) * 64 + (0x80 + c.toNat % 64 - 0x80) =
            c.toNat := by omega
        rw [harg, Char.ofNat_toNat]
        rfl
    · simp only [List.cons_append, List.nil_append] at h ⊢
      simp only [List.length_cons] at h
      cases fuel with
      | zero => omega
      | succ f =>
        simp only [utf8DecodeAux]
        rw [if_neg (by omega), if_neg (by omega), if_neg (by omega), if_neg (by omega),
          if_pos (by omega)]
        rw [if_pos (by refine ⟨⟨?_, ?_⟩, ⟨?_, ?_⟩, ?_, ?_⟩ <;> omega)]
        rw [ih f (by omega)]
        have harg : (0xF0 + c.toNat / 262144 - 0xF0) * 262144 +
            (0x80 + c.toNat / 4096 % 64 - 0x80) * 4096 +
            (0x80 + c.toNat / 64 % 64 - 0x80) * 64 + (0x80 + c.toNat % 64 - 0x80) =
            c.toNat := by omega
        rw [harg, Char.ofNat_toNat]
        rfl

/-- `TextDecoder.decode ∘ TextEncoder.encode` is the identity. -/
theorem utf8Decode_utf8Encode (s : String) : utf8Decode (utf8Encode s) = some s := by
  rcases s with ⟨cs⟩
  unfold utf8Decode utf8Encode
  rw [show (String.mk cs).data = cs from rfl, utf8DecodeAux_encode cs _ le_rfl]
  rfl

/-- Byte-wise inversion of the modelled keyed stream addition. -/
theorem zipWith_addInv (p : Bytes) :
    ∀ ks : Bytes, p.length ≤ ks.length → (∀ b ∈ p, b < 256) →
      List.zipWith (fun a b => (a + 256 - b % 256) % 256)
        (List.zipWith (fun a b => (a + b) % 256) p ks) ks = p := by
  induction p with
  | nil => intro ks _ _; simp
  | cons a p ih =>
    intro ks hlen hp
    cases ks with
    | nil => simp at hlen
    | cons k ks =>
      simp only [List.zipWith_cons_cons, List.cons.injEq]
      refine ⟨?_, ih ks (by simpa using hlen)
        (fun b hb => hp b (List.mem_cons_of_mem a hb))⟩
      have ha : a < 256 := hp a (List.mem_cons_self a p)
      omega

/-- The modelled GCM core preserves length. -/
theorem gcmCipher_length (key iv p : Bytes) : (gcmCipher key iv p).length = p.length := by
  simp [gcmCipher, gcmKeystream]

/-- The modelled GCM decryption core inverts the encryption core. -/
theorem gcmDecipher_gcmCipher (key iv p : Bytes) (hp : ∀ b ∈ p, b < 256) :
    gcmDecipher key iv (gcmCipher key iv p) = p := by
  unfold gcmDecipher
  rw [gcmCipher_length]
  exact zipWith_addInv p (gcmKeystream key iv p.length) (by simp [gcmKeystream]) hp

/-- The modelled GCM tag has 16 bytes. -/
theorem gcmTag_length (key iv ct : Bytes) : (gcmTag key iv ct).length = 16 := by
  simp [gcmTag, AUTH_TAG_LENGTH]

/-- Hex digits round-trip through their character. -/
theorem hexDigitVal?_hexDigitChar (n : Nat) (h : n < 16) :
    hexDigitVal? (hexDigitChar n) = some n := by
  interval_cases n <;> rfl

/-- The flattened digit pairs of a byte buffer have even length. -/
theorem length_byteToHexChars_flatten (bs : Bytes) (hb : ∀ b ∈ bs, b < 256) :
    ((bs.map byteToHexChars).flatten).length = 2 * bs.length := by
  induction bs with
  | nil => rfl
  | cons b rest ih =>
    have hblt : b < 256 := hb b (List.mem_cons_self b rest)
    rw [List.map_cons, List.flatten_cons, List.length_append, byteToHexChars, if_pos hblt]
    rw [ih (fun x hx => hb x (List.mem_cons_of_mem b hx))]
    simp only [List.length_cons, List.length_nil, List.length_cons]
    omega

/-- `toHex` output is never the empty string (it carries the 0x prefix). -/
theorem toHex_ne_empty (bs : Bytes) : toHex bs ≠ "" := by
  intro h
  have h2 := congrArg String.data h
  simp [toHex] at h2

-- Verified JSON codec: the parser inverts the serializer --------------------

/-- `Char.ofNat` and `Char.toNat` cancel below the surrogate range (every
code point this development constructs is in that range). -/
theorem char_toNat_ofNat (n : Nat) (h : n < 55296) : (Char.ofNat n).toNat = n := by
  have hv : n.isValidChar := Or.inl (by omega)
  simp only [Char.ofNat, hv, dite_true, Char.ofNatAux, Char.toNat]
  rfl

/-- Characters are determined by their code points. -/
theorem char_eq_of_toNat {c d : Char} (h : c.toNat = d.toNat) : c = d := by
  rcases c with ⟨⟨⟨cv, hc⟩⟩, hcv⟩
  rcases d with ⟨⟨⟨dv, hd⟩⟩, hdv⟩
  simp only [Char.toNat, UInt32.toNat, BitVec.toNat] at h
  subst h
  rfl

/-- `Char.ofNat` is injective below the surrogate range. -/
theorem char_ofNat_ne (a b : Nat) (ha : a < 55296) (hb : b < 55296) (hne : a ≠ b) :
    Char.ofNat a ≠ Char.ofNat b := by
  intro h
  apply hne
  have := congrArg Char.toNat h
  rwa [char_toNat_ofNat a ha, char_toNat_ofNat b hb] at this

/-- `skipWs` leaves a list alone when its head is not JSON whitespace. -/
theorem skipWs_cons_of_ge (c : Char) (cs : List Char) (h : 33 ≤ c.toNat) :
    skipWs (c :: cs) = c :: cs := by
  rw [skipWs]
  rw [if_neg]
  rintro (h32 | h9 | h10 | h13)
  · rw [h32] at h; simp [char_toNat_ofNat] at h
  · rw [h9] at h; simp [char_toNat_ofNat] at h
  · rw [h10] at h; simp [char_toNat_ofNat] at h
  · rw [h13] at h; simp [char_toNat_ofNat] at h

/-- `natToDecChars` emits a nonempty, all-digit character list. -/
theorem natToDecChars_digits (fuel n : Nat) (h : n < fuel) :
    natToDecChars fuel n ≠ [] ∧
      ∀ c ∈ natToDecChars fuel n, 48 ≤ c.toNat ∧ c.toNat ≤ 57 := by
  induction fuel generalizing n with
  | zero => omega
  | succ fuel ih =>
    rw [natToDecChars]
    by_cases h10 : n < 10
    · rw [if_pos h10]
      refine ⟨by simp, ?_⟩
      intro c hc
      simp at hc
      subst hc
      rw [char_toNat_ofNat _ (by omega)]
      omega
    · rw [if_neg h10]
      obtain ⟨hne, hall⟩ := ih (n / 10) (by omega)
      refine ⟨by simp, ?_⟩
      intro c hc
      rw [List.mem_append] at hc
      rcases hc with hc | hc
      · exact hall c hc
      · simp at hc
        subst hc
        rw [char_toNat_ofNat _ (by omega)]
        omega

/-- `parseDigitsAux` consumes a rendered digit chunk into the accumulator. -/
theorem parseDigitsAux_chunk (fuel n acc : Nat) (rest : List Char) (h : n < fuel) :
    parseDigits.parseDigitsAux (natToDecChars fuel n ++ rest) acc =
      parseDigits.parseDigitsAux rest (acc * 10 ^ (natToDecChars fuel n).length + n) := by
  induction fuel generalizing n acc rest with
  | zero => omega
  | succ fuel ih =>
    rw [natToDecChars]
    by_cases h10 : n < 10
    · rw [if_pos h10]
      have hc : (Char.ofNat (48 + n)).toNat = 48 + n := char_toNat_ofNat _ (by omega)
      rw [List.cons_append, List.nil_append, parseDigits.parseDigitsAux,
        if_pos (by rw [hc]; omega)]
      congr 1
      rw [hc]
      simp
    · rw [if_neg h10]
      rw [List.append_assoc, ih (n / 10) acc _ (by omega), List.cons_append,
        List.nil_append]
      have hd : (Char.ofNat (48 + n % 10)).toNat = 48 + n % 10 :=
        char_toNat_ofNat _ (by omega)
      rw [parseDigits.parseDigitsAux, if_pos (by rw [hd]; omega), hd]
      congr 1
      have hlen : (natToDecChars fuel (n / 10) ++ [Char.ofNat (48 + n % 10)]).length
          = (natToDecChars fuel (n / 10)).length + 1 := by simp
      rw [hlen, pow_succ, ← mul_assoc]
      generalize acc * 10 ^ (natToDecChars fuel (n / 10)).length = B
      omega

/-- `parseDigitsAux` stops at a non-digit boundary. -/
theorem parseDigitsAux_stop (l : List Char) (acc : Nat) (h : digitStart l = false) :
    parseDigits.parseDigitsAux l acc = (acc, l) := by
  cases l with
  | nil => rw [parseDigits.parseDigitsAux]
  | cons c cs =>
    have hnd : ¬ (48 ≤ c.toNat ∧ c.toNat ≤ 57) := by
      simp [digitStart] at h
      omega
    rw [parseDigits.parseDigitsAux, if_neg hnd]

/-- On a digit-headed input, `parseDigits` is the auxiliary at accumulator 0. -/
theorem parseDigits_eq_aux (l : List Char) (h : digitStart l = true) :
    parseDigits l = some (parseDigits.parseDigitsAux l 0) := by
  cases l with
  | nil => simp [digitStart] at h
  | cons c cs =>
    have hd : 48 ≤ c.toNat ∧ c.toNat ≤ 57 := by
      simp [digitStart] at h
      omega
    rw [parseDigits, if_pos hd, parseDigits.parseDigitsAux, if_pos hd]
    rcases hp : parseDigits.parseDigitsAux cs (c.toNat - 48) with ⟨n, rest⟩
    simp [hp]

/-- A rendered digit chunk parses back to the rendered number. -/
theorem parseDigits_natToDecChars (fuel n : Nat) (rest : List Char) (h : n < fuel)
    (hrest : digitStart rest = false) :
    parseDigits (natToDecChars fuel n ++ rest) = some (n, rest) := by
  obtain ⟨hne, hall⟩ := natToDecChars_digits fuel n h
  have hds : digitStart (natToDecChars fuel n ++ rest) = true := by
    cases hl : natToDecChars fuel n with
    | nil => exact absurd hl hne
    | cons c t =>
      have hct := hall c (by rw [hl]; simp)
      simp [digitStart]
      omega
  rw [parseDigits_eq_aux _ hds, parseDigitsAux_chunk fuel n 0 rest h,
    parseDigitsAux_stop rest _ hrest]
  simp

/-- `Char.ofNat` and `Char.toNat` cancel on any valid scalar value. -/
theorem char_toNat_ofNat_valid (n : Nat) (hv : n.isValidChar) :
    (Char.ofNat n).toNat = n := by
  simp only [Char.ofNat, hv, dite_true, Char.ofNatAux, Char.toNat]
  rfl

/-- `Char.ofNat` inverts `Char.toNat`. -/
theorem charOfNat_toNat (c : Char) : Char.ofNat c.toNat = c :=
  char_eq_of_toNat (char_toNat_ofNat_valid c.toNat c.valid)

/-- Character escapes are nonempty, so escaping never shortens a string. -/
theorem length_le_escFlatten (l : List Char) :
    l.length ≤ ((l.map escapeJsonChar).flatten).length := by
  induction l with
  | nil => simp
  | cons c t ih =>
    simp only [List.map_cons, List.flatten_cons, List.length_append, List.length_cons]
    have h1 : 1 ≤ (escapeJsonChar c).length := by
      rw [escapeJsonChar]
      split
      · simp
      · split
        · simp
        · split
          · simp
          · split
            · simp
            · split
              · simp
              · split
                · simp
                · split
                  · simp
                  · split
                    · simp
                    · simp
    omega

/-- One parser step on a unicode escape: hand off to `parseHex4`. -/
theorem parseStringBody_unicode (fuel : Nat) (cs2 : List Char) :
    parseStringBody (fuel + 1) (Char.ofNat 92 :: Char.ofNat 117 :: cs2) =
      match parseHex4 cs2 with
      | some (n, cs3) =>
        (parseStringBody fuel cs3).map fun r => (Char.ofNat n :: r.1, r.2)
      | none => none := rfl

/-- One parser step on an unescaped character. -/
theorem parseStringBody_raw (fuel : Nat) (c : Char) (cs : List Char)
    (h1 : ¬ c = Char.ofNat 34) (h2 : ¬ c = Char.ofNat 92) :
    parseStringBody (fuel + 1) (c :: cs) =
      (parseStringBody fuel cs).map fun r => (c :: r.1, r.2) := by
  rw [parseStringBody.eq_def]
  dsimp only
  rw [if_neg h1, if_neg h2]

/-- A JSON-escaped string body followed by the closing quote parses back to
the original characters. -/
theorem parseStringBody_escape (l : List Char) (fuel : Nat) (rest : List Char)
    (h : l.length < fuel) :
    parseStringBody fuel ((l.map escapeJsonChar).flatten ++ Char.ofNat 34 :: rest) =
      some (l, rest) := by
  induction l generalizing fuel with
  | nil =>
    cases fuel with
    | zero => omega
    | succ fuel =>
      simp only [List.map_nil, List.flatten_nil, List.nil_append]
      rfl
  | cons c t ih =>
    cases fuel with
    | zero => omega
    | succ fuel =>
      have ht : t.length < fuel := by
        simp only [List.length_cons] at h
        omega
      have htail := ih fuel ht
      simp only [List.map_cons, List.flatten_cons, List.append_assoc]
      by_cases h1 : c = Char.ofNat 34
      · subst h1
        have hstep : parseStringBody (fuel + 1) (escapeJsonChar (Char.ofNat 34) ++
            ((t.map escapeJsonChar).flatten ++ Char.ofNat 34 :: rest)) =
            (parseStringBody fuel
              ((t.map escapeJsonChar).flatten ++ Char.ofNat 34 :: rest)).map
              (fun r => (Char.ofNat 34 :: r.1, r.2)) := rfl
        rw [hstep, htail]
        rfl
      by_cases h2 : c = Char.ofNat 92
      · subst h2
        have hstep : parseStringBody (fuel + 1) (escapeJsonChar (Char.ofNat 92) ++
            ((t.map escapeJsonChar).flatten ++ Char.ofNat 34 :: rest)) =
            (parseStringBody fuel
              ((t.map escapeJsonChar).flatten ++ Char.ofNat 34 :: rest)).map
              (fun r => (Char.ofNat 92 :: r.1, r.2)) := rfl
        rw [hstep, htail]
        rfl
      by_cases h3 : c = Char.ofNat 8
      · subst h3
        have hstep : parseStringBody (fuel + 1) (escapeJsonChar (Char.ofNat 8) ++
            ((t.map escapeJsonChar).flatten ++ Char.ofNat 34 :: rest)) =
            (parseStringBody fuel
              ((t.map escapeJsonChar).flatten ++ Char.ofNat 34 :: rest)).map
              (fun r => (Char.ofNat 8 :: r.1, r.2)) := rfl
        rw [hstep, htail]
        rfl
      by_cases h4 : c = Char.ofNat 9
      · subst h4
        have hstep : parseStringBody (fuel + 1) (escapeJsonChar (Char.ofNat 9) ++
            ((t.map escapeJsonChar).flatten ++ Char.ofNat 34 :: rest)) =
            (parseStringBody fuel
              ((t.map escapeJsonChar).flatten ++ Char.ofNat 34 :: rest)).map
              (fun r => (Char.ofNat 9 :: r.1, r.2)) := rfl
        rw [hstep, htail]
        rfl
      by_cases h5 : c = Char.ofNat 10
      · subst h5
        have hstep : parseStringBody (fuel + 1) (escapeJsonChar (Char.ofNat 10) ++
            ((t.map escapeJsonChar).flatten ++ Char.ofNat 34 :: rest)) =
            (parseStringBody fuel
              ((t.map escapeJsonChar).flatten ++ Char.ofNat 34 :: rest)).map
              (fun r => (Char.ofNat 10 :: r.1, r.2)) := rfl
        rw [hstep, htail]
        rfl
      by_cases h6 : c = Char.ofNat 12
      · subst h6
        have hstep : parseStringBody (fuel + 1) (escapeJsonChar (Char.ofNat 12) ++
            ((t.map escapeJsonChar).flatten ++ Char.ofNat 34 :: rest)) =
            (parseStringBody fuel
              ((t.map escapeJsonChar).flatten ++ Char.ofNat 34 :: rest)).map
              (fun r => (Char.ofNat 12 :: r.1, r.2)) := rfl
        rw [hstep, htail]
        rfl
      by_cases h7 : c = Char.ofNat 13
      · subst h7
        have hstep : parseStringBody (fuel + 1) (escapeJsonChar (Char.ofNat 13) ++
            ((t.map escapeJsonChar).flatten ++ Char.ofNat 34 :: rest)) =
            (parseStringBody fuel
              ((t.map escapeJsonChar).flatten ++ Char.ofNat 34 :: rest)).map
              (fun r => (Char.ofNat 13 :: r.1, r.2)) := rfl
        rw [hstep, htail]
        rfl
      by_cases h8 : c.toNat < 32
      · have hesc : escapeJsonChar c = [Char.ofNat 92, Char.ofNat 117, '0', '0',
            hexDigitChar (c.toNat / 16), hexDigitChar (c.toNat % 16)] := by
          rw [escapeJsonChar, if_neg h1, if_neg h2, if_neg h3, if_neg h4, if_neg h5,
            if_neg h6, if_neg h7, if_pos h8]
        have hph : parseHex4 ('0' :: '0' :: hexDigitChar (c.toNat / 16) ::
            hexDigitChar (c.toNat % 16) ::
            ((t.map escapeJsonChar).flatten ++ Char.ofNat 34 :: rest)) =
            some (c.toNat, (t.map escapeJsonChar).flatten ++ Char.ofNat 34 :: rest) := by
          rw [parseHex4, hexDigitVal?_hexDigitChar (c.toNat / 16) (by omega),
            hexDigitVal?_hexDigitChar (c.toNat % 16) (by omega)]
          show some (0 * 4096 + 0 * 256 + c.toNat / 16 * 16 + c.toNat % 16, _) = _
          have hval : 0 * 4096 + 0 * 256 + c.toNat / 16 * 16 + c.toNat % 16 = c.toNat := by
            omega
          rw [hval]
        rw [hesc, List.cons_append, List.cons_append, List.cons_append, List.cons_append,
          List.cons_append, List.cons_append, List.nil_append, parseStringBody_unicode,
          hph]
        dsimp only
        rw [htail, charOfNat_toNat]
        rfl
      · have hesc : escapeJsonChar c = [c] := by
          rw [escapeJsonChar, if_neg h1, if_neg h2, if_neg h3, if_neg h4, if_neg h5,
            if_neg h6, if_neg h7, if_neg h8]
        rw [hesc, List.cons_append, List.nil_append, parseStringBody_raw fuel c _ h1 h2,
          htail]
        rfl

/-- The list serializer helper is a map. -/
theorem stringifyList_eq_map (xs : List Json) :
    stringifyJson.stringifyList xs = xs.map stringifyJson := by
  induction xs with
  | nil => rfl
  | cons x t ih => rw [stringifyJson.stringifyList, ih, List.map_cons]

/-- The field serializer helper is a map to member texts. -/
theorem stringifyFields_eq_map (fs : List (String × Json)) :
    stringifyJson.stringifyFields fs = fs.map memberChars := by
  induction fs with
  | nil => rfl
  | cons kv t ih =>
    rcases kv with ⟨k, v⟩
    rw [stringifyJson.stringifyFields, ih, List.map_cons]
    congr 1
    simp [memberChars, List.append_assoc]

/-- Serialized form of a nonempty array. -/
theorem stringify_arr_cons (x : Json) (xs : List Json) :
    stringifyJson (.arr (x :: xs)) =
      Char.ofNat 91 :: (stringifyJson x ++ arrTailChars xs) := by
  rw [stringifyJson, stringifyList_eq_map, List.map_cons, joinComma, arrTailChars,
    List.map_map]
  simp only [List.cons_append, List.append_assoc]
  rfl

/-- Serialized form of a nonempty object. -/
theorem stringify_obj_cons (kv : String × Json) (fs : List (String × Json)) :
    stringifyJson (.obj (kv :: fs)) =
      Char.ofNat 123 :: (memberChars kv ++ objTailChars fs) := by
  rw [stringifyJson, stringifyFields_eq_map, List.map_cons, joinComma, objTailChars,
    List.map_map]
  simp only [List.cons_append, List.append_assoc]
  rfl

/-- Serializer output starts with a character that is not whitespace and not
a closing bracket, closing brace, comma or colon. -/
theorem stringify_head (j : Json) : ∃ c t, stringifyJson j = c :: t ∧
    33 ≤ c.toNat ∧ c.toNat ≠ 93 ∧ c.toNat ≠ 125 ∧ c.toNat ≠ 44 ∧ c.toNat ≠ 58 := by
  cases j with
  | null => exact ⟨Char.ofNat 110, _, rfl, by decide⟩
  | bool b =>
    cases b with
    | true => exact ⟨Char.ofNat 116, _, rfl, by decide⟩
    | false => exact ⟨Char.ofNat 102, _, rfl, by decide⟩
  | str s => exact ⟨Char.ofNat 34, _, rfl, by decide⟩
  | num n =>
    cases n with
    | ofNat m =>
      obtain ⟨hne, hall⟩ := natToDecChars_digits (m + 1) m (by omega)
      have heq : stringifyJson (.num (Int.ofNat m)) = natToDecChars (m + 1) m := rfl
      cases hl : natToDecChars (m + 1) m with
      | nil => exact absurd hl hne
      | cons c t =>
        have hb := hall c (by rw [hl]; simp)
        exact ⟨c, t, by rw [heq, hl], by omega, by omega, by omega, by omega, by omega⟩
    | negSucc m => exact ⟨Char.ofNat 45, _, rfl, by decide⟩
  | arr xs =>
    cases xs with
    | nil => exact ⟨Char.ofNat 91, _, rfl, by decide⟩
    | cons x t => exact ⟨Char.ofNat 91, _, stringify_arr_cons x t, by decide⟩
  | obj fs =>
    cases fs with
    | nil => exact ⟨Char.ofNat 123, _, rfl, by decide⟩
    | cons kv t => exact ⟨Char.ofNat 123, _, stringify_obj_cons kv t, by decide⟩

/-- An array tail never starts with a digit. -/
theorem digitStart_arrTail (xs : List Json) (r : List Char) :
    digitStart (arrTailChars xs ++ r) = false := by
  cases xs with
  | nil => rfl
  | cons x t => rfl

/-- An object tail never starts with a digit. -/
theorem digitStart_objTail (fs : List (String × Json)) (r : List Char) :
    digitStart (objTailChars fs ++ r) = false := by
  cases fs with
  | nil => rfl
  | cons kv t => rfl

/-- A character differs from `Char.ofNat k` when its code point differs. -/
theorem char_ne_ofNat_of_toNat (c : Char) (k : Nat) (hk : k < 55296)
    (h : c.toNat ≠ k) : ¬ c = Char.ofNat k := fun hEq =>
  h (by rw [hEq, char_toNat_ofNat k hk])

/-- A string value with trailing input, exposed as quote-headed characters. -/
theorem quote_append (s : String) (r : List Char) :
    stringifyJson (.str s) ++ r =
      Char.ofNat 34 :: ((s.data.map escapeJsonChar).flatten ++ Char.ofNat 34 :: r) := by
  show (Char.ofNat 34 :: (s.data.map escapeJsonChar).flatten ++ [Char.ofNat 34]) ++ r = _
  simp [List.append_assoc]

/-- A member text with trailing input, exposed as quote-headed characters. -/
theorem memberChars_head (kv : String × Json) (r : List Char) :
    memberChars kv ++ r =
      Char.ofNat 34 :: ((kv.1.data.map escapeJsonChar).flatten ++
        Char.ofNat 34 :: Char.ofNat 58 :: (stringifyJson kv.2 ++ r)) := by
  rcases kv with ⟨k, v⟩
  show (Char.ofNat 34 :: (k.data.map escapeJsonChar).flatten ++ [Char.ofNat 34] ++
    Char.ofNat 58 :: stringifyJson v) ++ r = _
  simp [List.append_assoc]

/-- An array tail with trailing input, decomposed at the first comma. -/
theorem arrTail_cons_append (x : Json) (t : List Json) (r : List Char) :
    arrTailChars (x :: t) ++ r =
      Char.ofNat 44 :: (stringifyJson x ++ (arrTailChars t ++ r)) := by
  simp [arrTailChars, List.append_assoc]

/-- An object tail with trailing input, decomposed at the first comma. -/
theorem objTail_cons_append (kv : String × Json) (t : List (String × Json))
    (r : List Char) :
    objTailChars (kv :: t) ++ r =
      Char.ofNat 44 :: (memberChars kv ++ (objTailChars t ++ r)) := by
  simp [objTailChars, List.append_assoc]

/-- `needList` is positive. -/
theorem needList_pos (xs : List Json) : 1 ≤ needFuel.needList xs := by
  cases xs with
  | nil => simp [needFuel.needList]
  | cons x t =>
    simp only [needFuel.needList]
    omega

/-- `needFields` is positive. -/
theorem needFields_pos (fs : List (String × Json)) : 1 ≤ needFuel.needFields fs := by
  cases fs with
  | nil => simp [needFuel.needFields]
  | cons kv t =>
    rcases kv with ⟨k, v⟩
    simp only [needFuel.needFields]
    omega

/-- `needFuel` is positive. -/
theorem needFuel_pos (j : Json) : 1 ≤ needFuel j := by
  cases j with
  | arr xs => exact needList_pos xs
  | obj fs => exact needFields_pos fs
  | null => simp [needFuel]
  | bool b => simp [needFuel]
  | num n => simp [needFuel]
  | str s => simp [needFuel]

/-- One parser step on a string value. -/
theorem parseVal_quote (fuel : Nat) (cs : List Char) :
    (parseFns (fuel + 1)).1 (Char.ofNat 34 :: cs) =
      (parseStringBody (cs.length + 1) cs).map
        fun r => (Json.str (String.mk r.1), r.2) := rfl

/-- One parser step on a negative number. -/
theorem parseVal_minus (fuel : Nat) (cs : List Char) :
    (parseFns (fuel + 1)).1 (Char.ofNat 45 :: cs) =
      (parseDigits cs).map fun r => (Json.num (-(r.1 : Int)), r.2) := rfl

/-- One parser step on an opening bracket. -/
theorem parseVal_lbracket (fuel : Nat) (cs : List Char) :
    (parseFns (fuel + 1)).1 (Char.ofNat 91 :: cs) =
      (match skipWs cs with
      | d :: ds =>
        if d = Char.ofNat 93 then some (Json.arr [], ds)
        else
          match (parseFns fuel).1 (d :: ds) with
          | some (v, rest) =>
            ((parseFns fuel).2.1 rest).map fun r => (Json.arr (v :: r.1), r.2)
          | none => none
      | [] => none) := rfl

/-- One parser step on an opening brace. -/
theorem parseVal_lbrace (fuel : Nat) (cs : List Char) :
    (parseFns (fuel + 1)).1 (Char.ofNat 123 :: cs) =
      (match skipWs cs with
      | d :: ds =>
        if d = Char.ofNat 125 then some (Json.obj [], ds)
        else
          match (parseFns fuel).2.2.1 (d :: ds) with
          | some (kv, rest) =>
            ((parseFns fuel).2.2.2 rest).map fun r => (Json.obj (kv :: r.1), r.2)
          | none => none
      | [] => none) := rfl

/-- One parser step on a digit-headed value. -/
theorem parseVal_digit (fuel : Nat) (c : Char) (cs : List Char)
    (hc1 : 48 ≤ c.toNat) (hc2 : c.toNat ≤ 57) :
    (parseFns (fuel + 1)).1 (c :: cs) =
      (parseDigits (c :: cs)).map fun r => (Json.num (r.1 : Int), r.2) := by
  simp only [parseFns]
  rw [skipWs_cons_of_ge c cs (by omega)]
  dsimp only
  rw [if_neg (char_ne_ofNat_of_toNat c 34 (by omega) (by omega)),
    if_neg (char_ne_ofNat_of_toNat c 116 (by omega) (by omega)),
    if_neg (char_ne_ofNat_of_toNat c 102 (by omega) (by omega)),
    if_neg (char_ne_ofNat_of_toNat c 110 (by omega) (by omega)),
    if_neg (char_ne_ofNat_of_toNat c 45 (by omega) (by omega)),
    if_pos ⟨by omega, by omega⟩]

/-- One array-tail parser step at a comma. -/
theorem parseArrTail_comma (fuel : Nat) (cs : List Char) :
    (parseFns (fuel + 1)).2.1 (Char.ofNat 44 :: cs) =
      (match (parseFns fuel).1 cs with
      | some (v, rest) => ((parseFns fuel).2.1 rest).map fun r => (v :: r.1, r.2)
      | none => none) := rfl

/-- One object-member parser step at the opening quote. -/
theorem parseMember_quote (fuel : Nat) (cs : List Char) :
    (parseFns (fuel + 1)).2.2.1 (Char.ofNat 34 :: cs) =
      (match parseStringBody (cs.length + 1) cs with
      | some (k, rest) =>
        match skipWs rest with
        | d :: ds =>
          if d = Char.ofNat 58 then
            ((parseFns fuel).1 ds).map fun r => ((String.mk k, r.1), r.2)
          else none
        | [] => none
      | none => none) := rfl

/-- One object-tail parser step at a comma. -/
theorem parseObjTail_comma (fuel : Nat) (cs : List Char) :
    (parseFns (fuel + 1)).2.2.2 (Char.ofNat 44 :: cs) =
      (match (parseFns fuel).2.2.1 cs with
      | some (kv, rest) => ((parseFns fuel).2.2.2 rest).map fun r => (kv :: r.1, r.2)
      | none => none) := rfl

/-- The fueled JSON parser inverts the serializer, one conjunct per parsing
function (value, array tail, object member, object tail), for any fuel at
least the `needFuel` of the value being read. -/
theorem parseFns_stringify : ∀ fuel : Nat,
    (∀ j rest, needFuel j ≤ fuel → digitStart rest = false →
      (parseFns fuel).1 (stringifyJson j ++ rest) = some (j, rest)) ∧
    (∀ xs rest, needFuel.needList xs ≤ fuel → digitStart rest = false →
      (parseFns fuel).2.1 (arrTailChars xs ++ rest) = some (xs, rest)) ∧
    (∀ kv rest, 1 + needFuel kv.2 ≤ fuel → digitStart rest = false →
      (parseFns fuel).2.2.1 (memberChars kv ++ rest) = some (kv, rest)) ∧
    (∀ fs rest, needFuel.needFields fs ≤ fuel → digitStart rest = false →
      (parseFns fuel).2.2.2 (objTailChars fs ++ rest) = some (fs, rest)) := by
  intro fuel
  induction fuel with
  | zero =>
    refine ⟨fun j rest hle _ => absurd hle ?_, fun xs rest hle _ => absurd hle ?_,
      fun kv rest hle _ => absurd hle ?_, fun fs rest hle _ => absurd hle ?_⟩
    · have := needFuel_pos j
      omega
    · have := needList_pos xs
      omega
    · omega
    · have := needFields_pos fs
      omega
  | succ fuel ih =>
    obtain ⟨ihV, ihA, ihM, ihO⟩ := ih
    refine ⟨?_, ?_, ?_, ?_⟩
    · intro j rest hle hrest
      cases j with
      | null => rfl
      | bool b => cases b <;> rfl
      | str s =>
        rw [quote_append s rest, parseVal_quote]
        have hlen : s.data.length <
            ((s.data.map escapeJsonChar).flatten ++ Char.ofNat 34 :: rest).length + 1 := by
          have := length_le_escFlatten s.data
          simp only [List.length_append, List.length_cons]
          omega
        rw [parseStringBody_escape s.data _ rest hlen]
        rfl
      | num n =>
        cases n with
        | ofNat m =>
          obtain ⟨hne, hall⟩ := natToDecChars_digits (m + 1) m (by omega)
          cases hl : natToDecChars (m + 1) m with
          | nil => exact absurd hl hne
          | cons c t =>
            have hb := hall c (by rw [hl]; simp)
            have hin : stringifyJson (.num (Int.ofNat m)) ++ rest = c :: (t ++ rest) := by
              rw [show stringifyJson (.num (Int.ofNat m)) = natToDecChars (m + 1) m
                from rfl, hl, List.cons_append]
            rw [hin, parseVal_digit fuel c (t ++ rest) hb.1 hb.2, ← List.cons_append,
              ← hl, parseDigits_natToDecChars (m + 1) m rest (by omega) hrest]
            rfl
        | negSucc m =>
          have hin : stringifyJson (.num (Int.negSucc m)) ++ rest =
              Char.ofNat 45 :: (natToDecChars (m + 2) (m + 1) ++ rest) := by
            rw [show stringifyJson (.num (Int.negSucc m)) =
              Char.ofNat 45 :: natToDecChars (m + 2) (m + 1) from rfl, List.cons_append]
          rw [hin, parseVal_minus,
            parseDigits_natToDecChars (m + 2) (m + 1) rest (by omega) hrest]
          have hneg : -(((m + 1 : Nat) : Int)) = Int.negSucc m := by
            rw [Int.negSucc_eq]
            push_cast
            ring
          exact congrArg (fun z : Int => some (Json.num z, rest)) hneg
      | arr xs =>
        cases xs with
        | nil => rfl
        | cons x t =>
          have hm1 := Nat.le_max_left (needFuel x) (needFuel.needList t)
          have hm2 := Nat.le_max_right (needFuel x) (needFuel.needList t)
          simp only [needFuel, needFuel.needList] at hle
          have hx : needFuel x ≤ fuel := by omega
          have ht : needFuel.needList t ≤ fuel := by omega
          rw [stringify_arr_cons, List.cons_append, List.append_assoc,
            parseVal_lbracket fuel _]
          obtain ⟨c, ct, hxeq, hge, h93, _, _, _⟩ := stringify_head x
          rw [hxeq, List.cons_append, skipWs_cons_of_ge c _ hge]
          dsimp only
          rw [if_neg (char_ne_ofNat_of_toNat c 93 (by omega) h93), ← List.cons_append,
            ← hxeq, ihV x (arrTailChars t ++ rest) hx (digitStart_arrTail t rest)]
          dsimp only
          rw [ihA t rest ht hrest]
          rfl
      | obj fs =>
        cases fs with
        | nil => rfl
        | cons kv t =>
          rcases kv with ⟨k, v⟩
          have hm1 := Nat.le_max_left (1 + needFuel v) (needFuel.needFields t)
          have hm2 := Nat.le_max_right (1 + needFuel v) (needFuel.needFields t)
          simp only [needFuel, needFuel.needFields] at hle
          have hkv : 1 + needFuel v ≤ fuel := by omega
          have ht : needFuel.needFields t ≤ fuel := by omega
          rw [stringify_obj_cons, List.cons_append, List.append_assoc,
            parseVal_lbrace fuel _,
            memberChars_head (k, v) (objTailChars t ++ rest),
            skipWs_cons_of_ge _ _ (by decide)]
          dsimp only
          rw [if_neg (by decide), ← memberChars_head (k, v) (objTailChars t ++ rest),
            ihM (k, v) (objTailChars t ++ rest) hkv (digitStart_objTail t rest)]
          dsimp only
          rw [ihO t rest ht hrest]
          rfl
    · intro xs rest hle hrest
      cases xs with
      | nil => rfl
      | cons x t =>
        have hm1 := Nat.le_max_left (needFuel x) (needFuel.needList t)
        have hm2 := Nat.le_max_right (needFuel x) (needFuel.needList t)
        simp only [needFuel.needList] at hle
        have hx : needFuel x ≤ fuel := by omega
        have ht : needFuel.needList t ≤ fuel := by omega
        rw [arrTail_cons_append, parseArrTail_comma,
          ihV x (arrTailChars t ++ rest) hx (digitStart_arrTail t rest)]
        dsimp only
        rw [ihA t rest ht hrest]
        rfl
    · intro kv rest hle hrest
      rcases kv with ⟨k, v⟩
      have hle2 : 1 + needFuel v ≤ fuel + 1 := hle
      have hv : needFuel v ≤ fuel := by omega
      rw [memberChars_head (k, v) rest, parseMember_quote]
      have hblen : k.data.length < ((k.data.map escapeJsonChar).flatten ++
          Char.ofNat 34 :: Char.ofNat 58 :: (stringifyJson v ++ rest)).length + 1 := by
        have := length_le_escFlatten k.data
        simp only [List.length_append, List.length_cons]
        omega
      rw [parseStringBody_escape k.data _ _ hblen]
      dsimp only
      rw [skipWs_cons_of_ge _ _ (by decide)]
      dsimp only
      rw [if_pos rfl, ihV v rest hv hrest]
      rfl
    · intro fs rest hle hrest
      cases fs with
      | nil => rfl
      | cons kv t =>
        rcases kv with ⟨k, v⟩
        have hm1 := Nat.le_max_left (1 + needFuel v) (needFuel.needFields t)
        have hm2 := Nat.le_max_right (1 + needFuel v) (needFuel.needFields t)
        simp only [needFuel.needFields] at hle
        have hkv : 1 + needFuel v ≤ fuel := by omega
        have ht : needFuel.needFields t ≤ fuel := by omega
        rw [objTail_cons_append, parseObjTail_comma,
          ihM (k, v) (objTailChars t ++ rest) hkv (digitStart_objTail t rest)]
        dsimp only
        rw [ihO t rest ht hrest]
        rfl

/-- String literals are at least two characters long. -/
theorem two_le_quote_length (s : String) : 2 ≤ (quoteJsonString s).length := by
  simp [quoteJsonString]

/-- `needFuel` is bounded by the serialized length (plus one), so the fuel
`jsonParse` supplies always suffices for serializer output. -/
theorem needFuel_le_length : ∀ n : Nat,
    (∀ j : Json, sizeOf j ≤ n → needFuel j ≤ (stringifyJson j).length + 1) ∧
    (∀ xs : List Json, sizeOf xs ≤ n →
      needFuel.needList xs ≤ (arrTailChars xs).length) ∧
    (∀ fs : List (String × Json), sizeOf fs ≤ n →
      needFuel.needFields fs ≤ (objTailChars fs).length) := by
  intro n
  induction n with
  | zero =>
    refine ⟨fun j hsz => absurd hsz ?_, fun xs hsz => absurd hsz ?_,
      fun fs hsz => absurd hsz ?_⟩
    · have : 0 < sizeOf j := by cases j <;> simp
      omega
    · have : 0 < sizeOf xs := by cases xs <;> simp
      omega
    · have : 0 < sizeOf fs := by cases fs <;> simp
      omega
  | succ n ih =>
    obtain ⟨ihJ, ihL, ihF⟩ := ih
    refine ⟨?_, ?_, ?_⟩
    · intro j hsz
      cases j with
      | null => simp [needFuel]
      | bool b => simp [needFuel]
      | num m => simp [needFuel]
      | str s => simp [needFuel]
      | arr xs =>
        cases xs with
        | nil => simp [needFuel, needFuel.needList]
        | cons x t =>
          have hsx : sizeOf (x :: t) ≤ n := by
            have h1 : sizeOf (Json.arr (x :: t)) = 1 + sizeOf (x :: t) := by simp
            omega
          have hlist := ihL (x :: t) hsx
          have hlen : (arrTailChars (x :: t)).length =
              (stringifyJson (Json.arr (x :: t))).length := by
            rw [stringify_arr_cons]
            simp [arrTailChars]
          have heq : needFuel (Json.arr (x :: t)) = needFuel.needList (x :: t) := rfl
          omega
      | obj fs =>
        cases fs with
        | nil => simp [needFuel, needFuel.needFields]
        | cons kv t =>
          have hsf : sizeOf (kv :: t) ≤ n := by
            have h1 : sizeOf (Json.obj (kv :: t)) = 1 + sizeOf (kv :: t) := by simp
            omega
          have hfields := ihF (kv :: t) hsf
          have hlen : (objTailChars (kv :: t)).length =
              (stringifyJson (Json.obj (kv :: t))).length := by
            rw [stringify_obj_cons]
            simp [objTailChars]
          have heq : needFuel (Json.obj (kv :: t)) = needFuel.needFields (kv :: t) := rfl
          omega
    · intro xs hsz
      cases xs with
      | nil => simp [needFuel.needList, arrTailChars]
      | cons x t =>
        have hx : sizeOf x ≤ n := by
          have h1 : sizeOf (x :: t) = 1 + sizeOf x + sizeOf t := by simp
          have h2 : 0 < sizeOf t := by cases t <;> simp
          omega
        have ht : sizeOf t ≤ n := by
          have h1 : sizeOf (x :: t) = 1 + sizeOf x + sizeOf t := by simp
          have h2 : 0 < sizeOf x := by cases x <;> simp
          omega
        have h1 := ihJ x hx
        have h2 := ihL t ht
        have h3 := needList_pos t
        simp only [needFuel.needList]
        have hlen : (arrTailChars (x :: t)).length =
            1 + (stringifyJson x).length + (arrTailChars t).length := by
          simp [arrTailChars]
          omega
        have hm : needFuel x ⊔ needFuel.needList t ≤
            (stringifyJson x).length + (arrTailChars t).length :=
          Nat.max_le.2 ⟨by omega, by omega⟩
        omega
    · intro fs hsz
      cases fs with
      | nil => simp [needFuel.needFields, objTailChars]
      | cons kv t =>
        rcases kv with ⟨k, v⟩
        have hv : sizeOf v ≤ n := by
          have h1 : sizeOf ((k, v) :: t) = 1 + sizeOf (k, v) + sizeOf t := by simp
          have h2 : sizeOf (k, v) = 1 + sizeOf k + sizeOf v := by simp
          have h3 : 0 < sizeOf t := by cases t <;> simp
          omega
        have ht : sizeOf t ≤ n := by
          have h1 : sizeOf ((k, v) :: t) = 1 + sizeOf (k, v) + sizeOf t := by simp
          have h2 : 0 < sizeOf (k, v) := by simp
          omega
        have h1 := ihJ v hv
        have h2 := ihF t ht
        have h3 := needFields_pos t
        have hq := two_le_quote_length k
        simp only [needFuel.needFields]
        have hlen : (objTailChars ((k, v) :: t)).length =
            1 + (memberChars (k, v)).length + (objTailChars t).length := by
          simp [objTailChars]
          omega
        have hmem : (memberChars (k, v)).length =
            (quoteJsonString k).length + 1 + (stringifyJson v).length := by
          simp [memberChars]
          omega
        have hm : (1 + needFuel v) ⊔ needFuel.needFields t ≤
            (memberChars (k, v)).length + (objTailChars t).length :=
          Nat.max_le.2 ⟨by omega, by omega⟩
        omega

/-- `JSON.parse` inverts `JSON.stringify` on every JSON value of the model. -/
theorem parse_stringify (j : Json) :
    jsonParse (String.mk (stringifyJson j)) = some j := by
  have hfuel : needFuel j ≤ 2 * (stringifyJson j).length + 4 := by
    have := (needFuel_le_length (sizeOf j)).1 j le_rfl
    omega
  have h := (parseFns_stringify (2 * (stringifyJson j).length + 4)).1 j [] hfuel rfl
  rw [List.append_nil] at h
  show (match parseVal (2 * (stringifyJson j).length + 4) (stringifyJson j) with
    | some (v, rest) => if skipWs rest = [] then some v else none
    | none => none) = some j
  rw [parseVal, h]
  rfl

/-- `JSON.parse` of the canonical JSON text returns the deep-key-sorted
image of the value. -/
theorem jsonParse_canonicalizeJson (j : Json) :
    jsonParse (canonicalizeJson j) = some (sortKeysDeep j) :=
  parse_stringify (sortKeysDeep j)

/-- `charListLt` is irreflexive. -/
theorem charListLt_irrefl (l : List Char) : charListLt l l = false := by
  induction l with
  | nil => rfl
  | cons c t ih =>
    rw [charListLt]
    simp [ih]

/-- `charListLt` is transitive. -/
theorem charListLt_trans {a b c : List Char} (h1 : charListLt a b = true)
    (h2 : charListLt b c = true) : charListLt a c = true := by
  induction a generalizing b c with
  | nil =>
    cases b with
    | nil => simp [charListLt] at h1
    | cons y ys =>
      cases c with
      | nil => simp [charListLt] at h2
      | cons z zs => rfl
  | cons x xs ih =>
    cases b with
    | nil => simp [charListLt] at h1
    | cons y ys =>
      cases c with
      | nil => simp [charListLt] at h2
      | cons z zs =>
        rw [charListLt] at h1 h2 ⊢
        by_cases hxy : x.toNat < y.toNat
        · by_cases hyz : y.toNat < z.toNat
          · rw [if_pos (by omega)]
          · rw [if_neg hyz] at h2
            by_cases hzy : z.toNat < y.toNat
            · rw [if_pos hzy] at h2
              exact absurd h2 (by simp)
            · rw [if_pos (by omega)]
        · rw [if_neg hxy] at h1
          by_cases hyx : y.toNat < x.toNat
          · rw [if_pos hyx] at h1
            exact absurd h1 (by simp)
          · rw [if_neg hyx] at h1
            by_cases hyz : y.toNat < z.toNat
            · rw [if_pos (by omega)]
            · rw [if_neg hyz] at h2
              by_cases hzy : z.toNat < y.toNat
              · rw [if_pos hzy] at h2
                exact absurd h2 (by simp)
              · rw [if_neg hzy] at h2
                rw [if_neg (by omega), if_neg (by omega)]
                exact ih h1 h2

/-- Lists unrelated by `charListLt` in either direction are equal. -/
theorem charListLt_eq {a b : List Char} (h1 : charListLt a b = false)
    (h2 : charListLt b a = false) : a = b := by
  induction a generalizing b with
  | nil =>
    cases b with
    | nil => rfl
    | cons y ys => simp [charListLt] at h1
  | cons x xs ih =>
    cases b with
    | nil => simp [charListLt] at h2
    | cons y ys =>
      rw [charListLt] at h1 h2
      by_cases hxy : x.toNat < y.toNat
      · rw [if_pos hxy] at h1
        exact absurd h1 (by simp)
      · rw [if_neg hxy] at h1
        by_cases hyx : y.toNat < x.toNat
        · rw [if_pos hyx] at h2
          exact absurd h2 (by simp)
        · rw [if_neg hyx] at h1
          rw [if_neg hyx, if_neg hxy] at h2
          rw [char_eq_of_toNat (show x.toNat = y.toNat by omega), ih h1 h2]

/-- `keyLe` is reflexive. -/
theorem keyLe_refl (a : String) : keyLe a a = true := by
  simp [keyLe, charListLt_irrefl]

/-- `keyLe` is total. -/
theorem keyLe_total (a b : String) : keyLe a b = true ∨ keyLe b a = true := by
  rw [keyLe, keyLe, Bool.not_eq_true', Bool.not_eq_true']
  by_cases h1 : charListLt b.data a.data = true
  · right
    by_cases h2 : charListLt a.data b.data = true
    · have h3 := charListLt_trans h1 h2
      rw [charListLt_irrefl] at h3
      exact absurd h3 (by simp)
    · exact Bool.eq_false_iff.mpr h2
  · left
    exact Bool.eq_false_iff.mpr h1

/-- `keyLe` is transitive. -/
theorem keyLe_trans {a b c : String} (h1 : keyLe a b = true) (h2 : keyLe b c = true) :
    keyLe a c = true := by
  rw [keyLe, Bool.not_eq_true'] at h1 h2 ⊢
  by_contra h
  have hlt : charListLt c.data a.data = true := by
    cases hcb : charListLt c.data a.data with
    | true => rfl
    | false => exact absurd hcb h
  cases htab : charListLt a.data b.data with
  | false =>
    have hab := charListLt_eq htab h1
    rw [hab] at hlt
    exact absurd (hlt.symm.trans h2) (by simp)
  | true =>
    have h3 := charListLt_trans hlt htab
    exact absurd (h3.symm.trans h2) (by simp)

/-- Members of `insertField` come from the inserted field or the list. -/
theorem mem_insertField (p x : String × Json) (l : List (String × Json))
    (h : x ∈ insertField p l) : x = p ∨ x ∈ l := by
  induction l with
  | nil =>
    simp [insertField] at h
    exact Or.inl h
  | cons q qs ih =>
    rw [insertField] at h
    by_cases hle : keyLe p.1 q.1 = true
    · rw [if_pos hle] at h
      simp at h
      rcases h with h | h | h
      · exact Or.inl h
      · exact Or.inr (by simp [h])
      · exact Or.inr (by simp [h])
    · rw [if_neg hle] at h
      simp at h
      rcases h with h | h
      · exact Or.inr (by simp [h])
      · rcases ih h with h2 | h2
        · exact Or.inl h2
        · exact Or.inr (by simp [h2])

/-- `insertField` preserves key-sortedness. -/
theorem pairwise_insertField (p : String × Json) (l : List (String × Json))
    (h : l.Pairwise (fun x y => keyLe x.1 y.1 = true)) :
    (insertField p l).Pairwise (fun x y => keyLe x.1 y.1 = true) := by
  induction l with
  | nil => simp [insertField]
  | cons q qs ih =>
    rw [List.pairwise_cons] at h
    obtain ⟨hq, hqs⟩ := h
    rw [insertField]
    by_cases hle : keyLe p.1 q.1 = true
    · rw [if_pos hle]
      refine List.Pairwise.cons ?_ (List.Pairwise.cons hq hqs)
      intro y hy
      simp at hy
      rcases hy with hy | hy
      · rw [hy]
        exact hle
      · exact keyLe_trans hle (hq y hy)
    · rw [if_neg hle]
      refine List.Pairwise.cons ?_ (ih hqs)
      intro y hy
      rcases mem_insertField p y qs hy with h2 | h2
      · rw [h2]
        exact (keyLe_total p.1 q.1).resolve_left hle
      · exact hq y h2

/-- `sortFields` output is key-sorted. -/
theorem sortFields_pairwise (fs : List (String × Json)) :
    (sortFields fs).Pairwise (fun x y => keyLe x.1 y.1 = true) := by
  induction fs with
  | nil => simp [sortFields]
  | cons f t ih =>
    have h1 : sortFields (f :: t) = insertField f (sortFields t) := rfl
    rw [h1]
    exact pairwise_insertField f _ ih

/-- `sortFields` fixes key-sorted lists. -/
theorem sortFields_of_pairwise (fs : List (String × Json))
    (h : fs.Pairwise (fun x y => keyLe x.1 y.1 = true)) : sortFields fs = fs := by
  induction fs with
  | nil => rfl
  | cons f t ih =>
    rw [List.pairwise_cons] at h
    obtain ⟨hf, ht⟩ := h
    have h1 : sortFields (f :: t) = insertField f (sortFields t) := rfl
    rw [h1, ih ht]
    cases t with
    | nil => rfl
    | cons q qs => rw [insertField, if_pos (hf q (by simp))]

/-- `sortFields` is idempotent. -/
theorem sortFields_idem (fs : List (String × Json)) :
    sortFields (sortFields fs) = sortFields fs :=
  sortFields_of_pairwise _ (sortFields_pairwise fs)

/-- Mapping over values commutes with `insertField` (keys untouched). -/
theorem insertField_map_snd (g : Json → Json) (p : String × Json)
    (l : List (String × Json)) :
    (insertField p l).map (fun kv => (kv.1, g kv.2)) =
      insertField (p.1, g p.2) (l.map (fun kv => (kv.1, g kv.2))) := by
  induction l with
  | nil => rfl
  | cons q qs ih =>
    rw [insertField]
    by_cases hle : keyLe p.1 q.1 = true
    · rw [if_pos hle, List.map_cons, List.map_cons, insertField, if_pos hle]
    · rw [if_neg hle, List.map_cons, List.map_cons, ih, insertField, if_neg hle]

/-- Mapping over values commutes with `sortFields`. -/
theorem sortFields_map_snd (g : Json → Json) (fs : List (String × Json)) :
    (sortFields fs).map (fun kv => (kv.1, g kv.2)) =
      sortFields (fs.map (fun kv => (kv.1, g kv.2))) := by
  induction fs with
  | nil => rfl
  | cons f t ih =>
    calc (sortFields (f :: t)).map (fun kv => (kv.1, g kv.2))
        = (insertField f (sortFields t)).map (fun kv => (kv.1, g kv.2)) := rfl
      _ = insertField (f.1, g f.2) ((sortFields t).map (fun kv => (kv.1, g kv.2))) :=
          insertField_map_snd g f (sortFields t)
      _ = insertField (f.1, g f.2) (sortFields (t.map (fun kv => (kv.1, g kv.2)))) := by
          rw [ih]
      _ = sortFields ((f :: t).map (fun kv => (kv.1, g kv.2))) := rfl

/-- The deep-sort field helper is a map on values. -/
theorem sortFieldsDeep_eq_map (fs : List (String × Json)) :
    sortKeysDeep.sortFieldsDeep fs = fs.map (fun kv => (kv.1, sortKeysDeep kv.2)) := by
  induction fs with
  | nil => rfl
  | cons kv t ih =>
    rcases kv with ⟨k, v⟩
    rw [sortKeysDeep.sortFieldsDeep, ih, List.map_cons]

/-- The deep-sort list helper is a map. -/
theorem sortListDeep_eq_map (xs : List Json) :
    sortKeysDeep.sortListDeep xs = xs.map sortKeysDeep := by
  induction xs with
  | nil => rfl
  | cons x t ih => rw [sortKeysDeep.sortListDeep, ih, List.map_cons]

/-- `sortKeysDeep` is idempotent (strong induction on size). -/
theorem sortKeysDeep_idem_aux : ∀ n : Nat, ∀ j : Json, sizeOf j ≤ n →
    sortKeysDeep (sortKeysDeep j) = sortKeysDeep j := by
  intro n
  induction n with
  | zero =>
    intro j hsz
    have h0 : 0 < sizeOf j := by cases j <;> simp
    omega
  | succ n ih =>
    intro j hsz
    cases j with
    | null => rfl
    | bool b => rfl
    | num m => rfl
    | str s => rfl
    | arr xs =>
      have h1 : ∀ ys : List Json, sortKeysDeep (Json.arr ys) =
          Json.arr (ys.map sortKeysDeep) := by
        intro ys
        rw [sortKeysDeep, sortListDeep_eq_map]
      rw [h1, h1, List.map_map]
      congr 1
      apply List.map_congr_left
      intro x hx
      have hszx : sizeOf x ≤ n := by
        have h3 := List.sizeOf_lt_of_mem hx
        have h4 : sizeOf (Json.arr xs) = 1 + sizeOf xs := by simp
        omega
      simp only [Function.comp_apply]
      exact ih x hszx
    | obj fs =>
      have h1 : ∀ gs : List (String × Json), sortKeysDeep (Json.obj gs) =
          Json.obj (sortFields (gs.map (fun kv => (kv.1, sortKeysDeep kv.2)))) := by
        intro gs
        rw [sortKeysDeep, sortFieldsDeep_eq_map]
      rw [h1, h1]
      congr 1
      rw [sortFields_map_snd, List.map_map]
      have hcong : fs.map ((fun kv => (kv.1, sortKeysDeep kv.2)) ∘
          (fun kv => (kv.1, sortKeysDeep kv.2))) =
          fs.map (fun kv => (kv.1, sortKeysDeep kv.2)) := by
        apply List.map_congr_left
        intro kv hkv
        rcases kv with ⟨k, v⟩
        have h3 := List.sizeOf_lt_of_mem hkv
        have h4 : sizeOf (Json.obj fs) = 1 + sizeOf fs := by simp
        have h5 : sizeOf ((k, v) : String × Json) = 1 + sizeOf k + sizeOf v := by simp
        have hszv : sizeOf v ≤ n := by omega
        simp only [Function.comp_apply]
        rw [ih v hszv]
      rw [hcong, sortFields_idem]

/-- `sortKeysDeep` is idempotent. -/
theorem sortKeysDeep_idem (j : Json) : sortKeysDeep (sortKeysDeep j) = sortKeysDeep j :=
  sortKeysDeep_idem_aux (sizeOf j) j le_rfl

/-- Canonical text is invariant under deep key sorting. -/
theorem canonicalizeJson_sortKeysDeep (j : Json) :
    canonicalizeJson (sortKeysDeep j) = canonicalizeJson j := by
  rw [canonicalizeJson, canonicalizeJson, sortKeysDeep_idem]

/-- Canonical bytes are invariant under deep key sorting. -/
theorem canonicalBytes_sortKeysDeep (j : Json) :
    canonicalBytes (sortKeysDeep j) = canonicalBytes j := by
  rw [canonicalBytes, canonicalBytes, canonicalizeJson_sortKeysDeep]

/-- `jsGet` on a cons cell, with the head as an unsplit pair. -/
theorem jsGet_cons (f : String × Json) (fs : List (String × Json)) (key : String) :
    jsGet (f :: fs) key = match jsGet fs key with
      | some r => some r
      | none => if f.1 = key then some f.2 else none := by
  rcases f with ⟨a, b⟩
  rfl

/-- `insertField` preserves JS property lookup (last occurrence wins). -/
theorem jsGet_insertField (p : String × Json) (l : List (String × Json)) (k : String) :
    jsGet (insertField p l) k = jsGet (p :: l) k := by
  induction l with
  | nil => rfl
  | cons q qs ih =>
    rw [insertField]
    by_cases hle : keyLe p.1 q.1 = true
    · rw [if_pos hle]
    · rw [if_neg hle, jsGet_cons q (insertField p qs), ih, jsGet_cons p qs,
        jsGet_cons p (q :: qs), jsGet_cons q qs]
      rcases hq : jsGet qs k with _ | r
      · by_cases hpk : p.1 = k
        · have hqk : ¬ q.1 = k := by
            intro hqk2
            apply hle
            rw [hpk, ← hqk2]
            exact keyLe_refl q.1
          simp [hpk, hqk]
        · by_cases hqk : q.1 = k
          · simp [hpk, hqk]
          · simp [hpk, hqk]
      · simp

/-- `sortFields` preserves JS property lookup. -/
theorem jsGet_sortFields (fs : List (String × Json)) (k : String) :
    jsGet (sortFields fs) k = jsGet fs k := by
  induction fs with
  | nil => rfl
  | cons f t ih =>
    have h1 : sortFields (f :: t) = insertField f (sortFields t) := rfl
    rw [h1, jsGet_insertField, jsGet_cons f (sortFields t), ih, jsGet_cons f t]

/-- Mapping over values maps JS property lookup. -/
theorem jsGet_map_snd (g : Json → Json) (fs : List (String × Json)) (k : String) :
    jsGet (fs.map (fun kv => (kv.1, g kv.2))) k = (jsGet fs k).map g := by
  induction fs with
  | nil => rfl
  | cons f t ih =>
    rcases f with ⟨a, b⟩
    rw [List.map_cons, jsGet_cons _ (t.map (fun kv => (kv.1, g kv.2))), ih,
      jsGet_cons (a, b) t]
    rcases jsGet t k with _ | r
    · by_cases hak : a = k
      · simp [hak]
      · simp [hak]
    · simp

/-- Property lookup on the deep-sorted image of an object. -/
theorem jsGet_sorted (fs : List (String × Json)) (k : String) :
    jsGet (sortFields (fs.map (fun kv => (kv.1, sortKeysDeep kv.2)))) k =
      (jsGet fs k).map sortKeysDeep := by
  rw [jsGet_sortFields, jsGet_map_snd]

/-- Capsule validity is preserved by deep key sorting. -/
theorem assertValidCapsule_sortKeysDeep (c : Json)
    (h : assertValidCapsule c = .ok ()) :
    assertValidCapsule (sortKeysDeep c) = .ok () := by
  cases c with
  | null => simp [assertValidCapsule] at h
  | bool b => simp [assertValidCapsule] at h
  | num m => simp [assertValidCapsule] at h
  | str s => simp [assertValidCapsule] at h
  | arr xs => simp [assertValidCapsule] at h
  | obj fields =>
    have hgoal : sortKeysDeep (Json.obj fields) =
        Json.obj (sortFields (fields.map (fun kv => (kv.1, sortKeysDeep kv.2)))) := by
      rw [sortKeysDeep, sortFieldsDeep_eq_map]
    rw [hgoal]
    simp only [assertValidCapsule] at h ⊢
    rw [jsGet_sorted]
    cases hv : jsGet fields "version" with
    | none =>
      rw [hv] at h
      exact absurd h (by simp)
    | some jv =>
      rw [hv] at h
      cases jv with
      | str v =>
        dsimp only at h
        simp only [Option.map_some', sortKeysDeep]
        by_cases hlen : v.length = 0
        · rw [if_pos hlen] at h
          exact absurd h (by simp)
        · rw [if_neg hlen] at h ⊢
          rw [jsGet_sorted]
          cases hp : jsGet fields "payload" with
          | none =>
            rw [hp] at h
            exact absurd h (by simp)
          | some jp =>
            rw [hp] at h
            cases jp with
            | obj pf =>
              simp only [Option.map_some', sortKeysDeep]
            | null => exact absurd h (by simp)
            | bool b2 => exact absurd h (by simp)
            | num m2 => exact absurd h (by simp)
            | str s2 => exact absurd h (by simp)
            | arr a2 => exact absurd h (by simp)
      | null => exact absurd h (by simp)
      | bool b2 => exact absurd h (by simp)
      | num m2 => exact absurd h (by simp)
      | arr a2 => exact absurd h (by simp)
      | obj o2 => exact absurd h (by simp)

-- C6 -----------------------------------------------------------------------

/-- Claim C6: `computeEnvelopeId` equals the keccak-256 digest, rendered as
a 0x-prefixed lowercase hex string, of the UTF-8 bytes of the lowercase
colon-joined triple, and it is a pure deterministic function invariant under
changing the letter case of any of its three arguments. -/
theorem computeEnvelopeId_spec :
    (∀ tokenAddress checkpointId consumerAddress : String,
      computeEnvelopeId tokenAddress checkpointId consumerAddress =
        toHex (keccak_256 (utf8Encode
          (jsLower tokenAddress ++ ":" ++ jsLower checkpointId ++ ":" ++
            jsLower consumerAddress)))) ∧
    (∀ a b c a2 b2 c2 : String,
      jsLower a = jsLower a2 → jsLower b = jsLower b2 → jsLower c = jsLower c2 →
      computeEnvelopeId a b c = computeEnvelopeId a2 b2 c2) := by
  refine ⟨fun _ _ _ => rfl, ?_⟩
  intro a b c a2 b2 c2 h1 h2 h3
  simp only [computeEnvelopeId, h1, h2, h3]

/-- Witness for C6 at concrete inputs: the id is case-insensitive in all
three arguments. -/
theorem computeEnvelopeId_spec_witness :
    computeEnvelopeId "0xAbC1" "0xF1D2" "0xDeAd" =
      computeEnvelopeId "0xabc1" "0xf1d2" "0xdead" :=
  computeEnvelopeId_spec.2 "0xAbC1" "0xF1D2" "0xDeAd" "0xabc1" "0xf1d2" "0xdead"
    (by decide) (by decide) (by decide)

-- C3 -----------------------------------------------------------------------

/-- Claim C3: `verifyStateCommitment` and `verifyCiphertextHash` never
return `false`: each returns `true` exactly when the computed digest equals
the expected digest under case-insensitive comparison, and on any inequality
throws a commitment-mismatch error carrying both digests. -/
theorem verifyDigest_spec (capsule : Json) (expected1 expected2 : String)
    (ciphertext : Bytes) (hval : assertValidCapsule capsule = .ok ()) :
    (verifyStateCommitment capsule expected1 = .ok true ↔
      jsLower (hashBytes (canonicalBytes capsule)) = jsLower expected1) ∧
    (∀ b, verifyStateCommitment capsule expected1 = .ok b → b = true) ∧
    (jsLower (hashBytes (canonicalBytes capsule)) ≠ jsLower expected1 →
      verifyStateCommitment capsule expected1 =
        .error (.commitmentMismatch (hashBytes (canonicalBytes capsule)) expected1)) ∧
    (verifyCiphertextHash ciphertext expected2 = .ok true ↔
      jsLower (computeCiphertextHash ciphertext) = jsLower expected2) ∧
    (∀ b, verifyCiphertextHash ciphertext expected2 = .ok b → b = true) ∧
    (jsLower (computeCiphertextHash ciphertext) ≠ jsLower expected2 →
      verifyCiphertextHash ciphertext expected2 =
        .error (.commitmentMismatch (computeCiphertextHash ciphertext) expected2)) := by
  have hser : serializeCapsule capsule = .ok (canonicalBytes capsule) := by
    simp [serializeCapsule, hval]
  have hstate : verifyStateCommitment capsule expected1 =
      (if jsLower (hashBytes (canonicalBytes capsule)) = jsLower expected1 then
        Except.ok true
      else .error (.commitmentMismatch (hashBytes (canonicalBytes capsule)) expected1)) := by
    simp [verifyStateCommitment, computeStateCommitment, hser, Except.map]
  have hct : verifyCiphertextHash ciphertext expected2 =
      (if jsLower (computeCiphertextHash ciphertext) = jsLower expected2 then
        Except.ok true
      else .error (.commitmentMismatch (computeCiphertextHash ciphertext) expected2)) := by
    simp [verifyCiphertextHash]
  rw [hstate, hct]
  by_cases h1 : jsLower (hashBytes (canonicalBytes capsule)) = jsLower expected1 <;>
    by_cases h2 : jsLower (computeCiphertextHash ciphertext) = jsLower expected2 <;>
      simp [h1, h2]

/-- Witness for C3: a matching digest verifies to `true`, a mismatching
digest raises the carrying error, at concrete inputs. -/
theorem verifyDigest_spec_witness :
    verifyCiphertextHash [1, 2, 3] (computeCiphertextHash [1, 2, 3]) = .ok true ∧
    verifyCiphertextHash [1, 2, 3] "0xff" =
      .error (.commitmentMismatch (computeCiphertextHash [1, 2, 3]) "0xff") := by
  constructor
  · exact (verifyDigest_spec (.obj [("payload", .obj []), ("version", .str "1")])
      "0x00" (computeCiphertextHash [1, 2, 3]) [1, 2, 3] rfl).2.2.2.1.mpr rfl
  · exact (verifyDigest_spec (.obj [("payload", .obj []), ("version", .str "1")])
      "0x00" "0xff" [1, 2, 3] rfl).2.2.2.2.2 (by decide)

-- C5 -----------------------------------------------------------------------

/-- Claim C5: `encrypt` and `decrypt` fail with the invalid-key-length error
whenever the key is not exactly 32 bytes; `decrypt` with a 32-byte key fails
with the too-short error whenever the input is under 28 bytes (and a 28-byte
input is NOT rejected as too short); `decrypt` fails with the
authentication-failed error when the tag check fails; and the three error
kinds are pairwise distinct. -/
theorem encryptDecrypt_errors_spec (plaintext key iv sealed : Bytes) :
    (key.length ≠ 32 → encrypt plaintext key iv = .error (.invalidKeyLength key.length)) ∧
    (key.length ≠ 32 → decrypt sealed key = .error (.invalidKeyLength key.length)) ∧
    (key.length = 32 → sealed.length < 28 →
      decrypt sealed key = .error (.tooShort sealed.length)) ∧
    (key.length = 32 → sealed.length = 28 →
      ∀ n, decrypt sealed key ≠ .error (.tooShort n)) ∧
    (key.length = 32 → 28 ≤ sealed.length →
      gcmTag key (sealed.take 12) ((sealed.take (sealed.length - 16)).drop 12) ≠
        sealed.drop (sealed.length - 16) →
      decrypt sealed key = .error .authenticationFailed) ∧
    (∀ n m, Err.invalidKeyLength n ≠ Err.tooShort m) ∧
    (∀ n, Err.invalidKeyLength n ≠ Err.authenticationFailed) ∧
    (∀ n, Err.tooShort n ≠ Err.authenticationFailed) := by
  refine ⟨?_, ?_, ?_, ?_, ?_, ?_, ?_, ?_⟩
  · intro h; simp [encrypt, KEY_LENGTH, h]
  · intro h; simp [decrypt, KEY_LENGTH, h]
  · intro hk hs
    simp [decrypt, KEY_LENGTH, IV_LENGTH, AUTH_TAG_LENGTH, hk, hs]
  · intro hk hs n
    simp only [decrypt, KEY_LENGTH, IV_LENGTH, AUTH_TAG_LENGTH, hk, hs]
    norm_num
    split <;> simp
  · intro hk hs htag
    simp only [decrypt, KEY_LENGTH, IV_LENGTH, AUTH_TAG_LENGTH, hk]
    rw [if_neg (by omega), if_neg (by omega), if_neg htag]
  · intro n m; simp
  · intro n; simp
  · intro n; simp

/-- Witness for C5: the three failure kinds observed at concrete inputs. -/
theorem encryptDecrypt_errors_spec_witness :
    encrypt [1] (List.replicate 31 0) [0] = .error (.invalidKeyLength 31) ∧
    decrypt (List.replicate 27 0) (List.replicate 32 0) = .error (.tooShort 27) ∧
    decrypt (List.replicate 28 1) (List.replicate 32 0) = .error .authenticationFailed := by
  refine ⟨?_, ?_, ?_⟩
  · exact (encryptDecrypt_errors_spec [1] (List.replicate 31 0) [0] []).1 (by decide)
  · exact (encryptDecrypt_errors_spec [] (List.replicate 32 0) []
      (List.replicate 27 0)).2.2.1 (by decide) (by decide)
  · exact (encryptDecrypt_errors_spec [] (List.replicate 32 0) []
      (List.replicate 28 1)).2.2.2.2.1 (by decide) (by decide) (by decide)

-- C10 ----------------------------------------------------------------------

/-- Claim C10: `wrapKey` always returns an envelope whose `checkpointId` is
the empty string and whose sender public key is derived from the sender
secret key (no caller-supplied sender public key exists); the `checkpointId`
is populated only afterwards by the caller, as
`PublisherKeyManager.fulfillRedemption` does by overwriting it with the
checkpoint being fulfilled before delivery. -/
theorem wrapKey_checkpointId_spec :
    (∀ contentKey recipientPublicKey senderSecretKey nonce : Bytes,
      (wrapKey contentKey recipientPublicKey senderSecretKey nonce).checkpointId = "" ∧
      (wrapKey contentKey recipientPublicKey senderSecretKey nonce).senderPublicKey =
        naclDerivePublicKey senderSecretKey) ∧
    (∀ (keys : KeyStore) (senderSecretKey : Bytes)
        (tokenAddress checkpointId consumerAddress : String)
        (consumerPublicKey nonce : Bytes) (st : StoredEnvelope),
      PublisherKeyManager.fulfillRedemption keys senderSecretKey tokenAddress
          checkpointId consumerAddress consumerPublicKey nonce = .ok st →
      st.envelope.checkpointId = checkpointId ∧
      ∃ K, mapGet keys (jsLower checkpointId) = some K ∧
        st.envelope = { wrapKey K consumerPublicKey senderSecretKey nonce with
                          checkpointId := checkpointId }) := by
  refine ⟨fun _ _ _ _ => ⟨rfl, rfl⟩, ?_⟩
  intro keys ssk tok cid cons cpk nonce st h
  unfold PublisherKeyManager.fulfillRedemption at h
  rcases hget : mapGet keys (jsLower cid) with _ | K
  · simp [hget] at h
  · simp only [hget] at h
    by_cases hlen : cpk.length ≠ 32
    · rw [if_pos hlen] at h; exact absurd h (by simp)
    · rw [if_neg hlen] at h
      injection h with h2
      subst h2
      exact ⟨rfl, K, rfl, rfl⟩

/-- Witness for C10: a concrete fulfilment stamps the checkpoint id onto the
freshly wrapped envelope. -/
theorem wrapKey_checkpointId_spec_witness :
    ∃ st, PublisherKeyManager.fulfillRedemption
        (PublisherKeyManager.storeKey [] "0xA1" (List.replicate 32 7)) [9]
        "0xtoken" "0xA1" "0xalice" (List.replicate 32 5) (List.replicate 24 1) = .ok st ∧
      st.envelope.checkpointId = "0xA1" := by
  refine ⟨_, rfl, ?_⟩
  exact (wrapKey_checkpointId_spec.2
    (PublisherKeyManager.storeKey [] "0xA1" (List.replicate 32 7)) [9]
    "0xtoken" "0xA1" "0xalice" (List.replicate 32 5) (List.replicate 24 1) _ rfl).1

-- C4 -----------------------------------------------------------------------

/-- The chaining loop is the first-mismatch search over consecutive pairs:
`lineageLoop prev rest i` errors with the index (counting from `i`) of the
first consecutive pair whose link is broken, and returns `true` when there
is none. -/
theorem lineageLoop_eq_findIdx (rest : List CheckpointRecord) :
    ∀ (prev : CheckpointRecord) (i : Nat),
      lineageLoop prev rest i =
        match ((prev :: rest).zip rest).findIdx?
            (fun p => decide (jsLower p.2.predecessorId ≠ jsLower p.1.checkpointId)) i with
        | none => .ok true
        | some k => .error (.lineageBroken k) := by
  induction rest with
  | nil => intro prev i; rfl
  | cons curr more ih =>
    intro prev i
    rw [List.zip_cons_cons, List.findIdx?_cons]
    by_cases hm : jsLower curr.predecessorId ≠ jsLower prev.checkpointId
    · rw [if_pos (by simpa using hm)]
      simp [lineageLoop, hm]
    · rw [if_neg (by simpa using hm)]
      rw [show lineageLoop prev (curr :: more) i = lineageLoop curr more (i + 1) by
        simp [lineageLoop, hm]]
      exact ih curr (i + 1)

/-- Claim C4: `verifyCheckpointLineage` returns `true` on the empty
sequence; on a non-empty sequence it throws the genesis-predecessor error if
the first record's predecessor is not the zero sentinel; otherwise it throws
the lineage-broken error naming the smallest index `i ≥ 1` whose
`predecessorId` differs case-insensitively from the previous record's
`checkpointId` (the first-index search over consecutive pairs, started at
index 1), and returns `true` exactly when no such index exists. -/
theorem verifyCheckpointLineage_spec (checkpoints : List CheckpointRecord) :
    (checkpoints = [] → verifyCheckpointLineage checkpoints = .ok true) ∧
    (∀ first rest, checkpoints = first :: rest →
      (jsLower first.predecessorId ≠ ZERO_BYTES32 →
        verifyCheckpointLineage checkpoints =
          .error (.genesisPredecessorNotZero first.predecessorId)) ∧
      (jsLower first.predecessorId = ZERO_BYTES32 →
        (∀ i, verifyCheckpointLineage checkpoints = .error (.lineageBroken i) ↔
          (checkpoints.zip rest).findIdx?
            (fun p => decide (jsLower p.2.predecessorId ≠ jsLower p.1.checkpointId)) 1 =
              some i) ∧
        (verifyCheckpointLineage checkpoints = .ok true ↔
          (checkpoints.zip rest).findIdx?
            (fun p => decide (jsLower p.2.predecessorId ≠ jsLower p.1.checkpointId)) 1 =
              none))) := by
  constructor
  · intro h; subst h; rfl
  · intro first rest h; subst h
    constructor
    · intro hgen
      simp [verifyCheckpointLineage, hgen]
    · intro hz
      have hv : verifyCheckpointLineage (first :: rest) = lineageLoop first rest 1 := by
        simp [verifyCheckpointLineage, hz]
      rw [hv, lineageLoop_eq_findIdx]
      rcases hidx : ((first :: rest).zip rest).findIdx?
          (fun p => decide (jsLower p.2.predecessorId ≠ jsLower p.1.checkpointId)) 1 with
        _ | k
      · rw [hidx]
        exact ⟨fun i => by simp, by simp⟩
      · rw [hidx]
        exact ⟨fun i => by simp [eq_comm], by simp⟩

/-- Witness for C4 at concrete records: a two-element sequence with a broken
second link fails with the lineage-broken error at index 1. -/
theorem verifyCheckpointLineage_spec_witness :
    verifyCheckpointLineage
      [{ checkpointId := "0xA", predecessorId := ZERO_BYTES32, stateCommitment := "",
         ciphertextHash := "", ciphertextUri := "", manifestHash := "",
         publishedAt := 1, blockNumber := 1 },
       { checkpointId := "0xC", predecessorId := "0xWRONG", stateCommitment := "",
         ciphertextHash := "", ciphertextUri := "", manifestHash := "",
         publishedAt := 2, blockNumber := 2 }] = .error (.lineageBroken 1) := by
  exact (((verifyCheckpointLineage_spec _).2 _ _ rfl).2 (by decide)).1 1 |>.mpr (by decide)

-- C9 -----------------------------------------------------------------------

/-- After an overwrite-or-append set, the first entry found under the key is
the new binding (overwrite case). -/
theorem find?_map_overwrite {k : String} {v : Bytes} (m : KeyStore)
    (h : m.any (fun p => p.1 = k) = true) :
    (m.map (fun p => if p.1 = k then (k, v) else p)).find? (fun p => p.1 = k) =
      some (k, v) := by
  induction m with
  | nil => simp at h
  | cons q rest ih =>
    by_cases hq : q.1 = k
    · simp [hq]
    · have h2 : rest.any (fun p => p.1 = k) = true := by simpa [hq] using h
      simpa [hq] using ih h2

/-- After an overwrite-or-append set, the first entry found under the key is
the new binding (append case). -/
theorem find?_append_new {k : String} {v : Bytes} (m : KeyStore)
    (h : m.any (fun p => p.1 = k) = false) :
    (m ++ [(k, v)]).find? (fun p => p.1 = k) = some (k, v) := by
  induction m with
  | nil => simp
  | cons q rest ih =>
    have hq : ¬ q.1 = k := by
      intro hc; simp [hc] at h
    have h2 : rest.any (fun p => p.1 = k) = false := by simpa [hq] using h
    simpa [hq] using ih h2

/-- `Map.set` followed by `Map.get` of the same key yields the new value. -/
theorem mapGet_mapSet_self (m : KeyStore) (k : String) (v : Bytes) :
    mapGet (mapSet m k v) k = some v := by
  unfold mapGet mapSet
  by_cases h : m.any (fun p => p.1 = k) = true
  · rw [if_pos h, find?_map_overwrite m h]; rfl
  · rw [if_neg h, find?_append_new m (Bool.eq_false_iff.mpr h)]; rfl

/-- `Map.has` is definedness of `Map.get`. -/
theorem mapHas_eq_isSome (m : KeyStore) (k : String) :
    mapHas m k = (mapGet m k).isSome := by
  unfold mapHas mapGet
  induction m with
  | nil => rfl
  | cons q rest ih =>
    by_cases hq : q.1 = k
    · simp [hq]
    · simpa [hq] using ih

/-- `Map.set` under a lowercased key preserves the lowercased-keys shape. -/
theorem storesLowercasedKeys_mapSet (m : KeyStore) (s : String) (v : Bytes)
    (h : storesLowercasedKeys m) :
    storesLowercasedKeys (mapSet m (jsLower s) v) := by
  unfold mapSet
  by_cases ha : m.any (fun p => p.1 = jsLower s) = true
  · rw [if_pos ha]
    intro p hp
    rcases List.mem_map.mp hp with ⟨q, hq, hfq⟩
    by_cases hk : q.1 = jsLower s
    · rw [if_pos hk] at hfq
      exact ⟨s, by rw [← hfq]⟩
    · rw [if_neg hk] at hfq
      exact hfq ▸ h q hq
  · rw [if_neg ha]
    intro p hp
    rcases List.mem_append.mp hp with hp | hp
    · exact h p hp
    · rcases List.mem_singleton.mp hp with rfl
      exact ⟨s, rfl⟩

/-- Claim C9: the publisher key managers store content keys under the
lowercased checkpoint identifier.  After `storeKey s K`, `hasKey t` holds
and `fulfillRedemption` for `t` wraps exactly the key `K`, for every `t`
equal to `s` up to letter case; lookups are case-insensitive on every store;
and the lowercased-keys shape is preserved by `storeKey` and `importKeys`,
for both `PublisherKeyManager` and `OnChainPublisherKeyManager`. -/
theorem keyManager_caseInsensitive_spec (m : KeyStore) (s t t2 : String) (K : Bytes)
    (senderSecretKey : Bytes) (tokenAddress consumerAddress : String)
    (consumerPublicKey nonce : Bytes)
    (hts : jsLower t = jsLower s) (hlen : consumerPublicKey.length = 32) :
    (PublisherKeyManager.hasKey (PublisherKeyManager.storeKey m s K) t = true) ∧
    (PublisherKeyManager.fulfillRedemption (PublisherKeyManager.storeKey m s K)
        senderSecretKey tokenAddress t consumerAddress consumerPublicKey nonce =
      .ok { tokenAddress := tokenAddress, checkpointId := t,
            consumerAddress := consumerAddress,
            envelope := { wrapKey K consumerPublicKey senderSecretKey nonce with
                            checkpointId := t } }) ∧
    (jsLower t = jsLower t2 →
      PublisherKeyManager.hasKey m t = PublisherKeyManager.hasKey m t2) ∧
    (storesLowercasedKeys m →
      storesLowercasedKeys (PublisherKeyManager.storeKey m s K)) ∧
    (∀ entries, storesLowercasedKeys m →
      storesLowercasedKeys (PublisherKeyManager.importKeys m entries)) ∧
    (OnChainPublisherKeyManager.hasKey (OnChainPublisherKeyManager.storeKey m s K) t
      = true) ∧
    (OnChainPublisherKeyManager.fulfillRedemption (OnChainPublisherKeyManager.storeKey m s K)
        senderSecretKey tokenAddress t consumerAddress consumerPublicKey nonce =
      .ok { tokenAddress := tokenAddress, checkpointId := t,
            consumerAddress := consumerAddress,
            envelope := { wrapKey K consumerPublicKey senderSecretKey nonce with
                            checkpointId := t } }) ∧
    (storesLowercasedKeys m →
      storesLowercasedKeys (OnChainPublisherKeyManager.storeKey m s K)) := by
  have hget : mapGet (mapSet m (jsLower s) K) (jsLower t) = some K := by
    rw [hts]; exact mapGet_mapSet_self m (jsLower s) K
  have hhas : mapHas (mapSet m (jsLower s) K) (jsLower t) = true := by
    rw [mapHas_eq_isSome, hget]; rfl
  have himport : ∀ entries m2, storesLowercasedKeys m2 →
      storesLowercasedKeys (PublisherKeyManager.importKeys m2 entries) := by
    intro entries
    induction entries with
    | nil => intro m2 h; exact h
    | cons e rest ih =>
      intro m2 h
      exact ih (mapSet m2 (jsLower e.1) (fromHex e.2))
        (storesLowercasedKeys_mapSet m2 e.1 (fromHex e.2) h)
  refine ⟨hhas, ?_, ?_, storesLowercasedKeys_mapSet m s K,
    fun entries h => himport entries m h, hhas, ?_, storesLowercasedKeys_mapSet m s K⟩
  · unfold PublisherKeyManager.fulfillRedemption PublisherKeyManager.storeKey
    simp only [hget, hlen]
    simp
  · intro h12
    unfold PublisherKeyManager.hasKey
    rw [h12]
  · unfold OnChainPublisherKeyManager.fulfillRedemption OnChainPublisherKeyManager.storeKey
    simp only [hget, hlen]
    simp

/-- Witness for C9: a key stored under a mixed-case id is found under the
lowercase id. -/
theorem keyManager_caseInsensitive_spec_witness :
    PublisherKeyManager.hasKey (PublisherKeyManager.storeKey [] "0xAB" [1]) "0xab"
      = true :=
  (keyManager_caseInsensitive_spec [] "0xAB" "0xab" "x" [1] [2] "tok" "alice"
    (List.replicate 32 0) (List.replicate 24 0) (by decide) (by decide)).1

-- C8 -----------------------------------------------------------------------

/-- Peeling one step off the right of the iteration. -/
theorem chainIterate_succ_right (getCp : String → ChainCheckpoint) :
    ∀ (n : Nat) (s : String),
      chainIterate getCp (n + 1) s = (getCp (chainIterate getCp n s)).predecessorId := by
  intro n
  induction n with
  | zero => intro s; rfl
  | succ m ih =>
    intro s
    rw [show chainIterate getCp (m + 1 + 1) s =
      chainIterate getCp (m + 1) (getCp s).predecessorId from rfl, ih]
    rfl

/-- The lineage walk performs at most `fuel` record lookups. -/
theorem getLineageAux_lookups_le (getCp : String → ChainCheckpoint) :
    ∀ (fuel : Nat) (cur : String) (visited : List String),
      (getLineageAux getCp fuel cur visited).2 ≤ fuel := by
  intro fuel
  induction fuel with
  | zero => intro cur visited; simp [getLineageAux]
  | succ f ih =>
    intro cur visited
    simp only [getLineageAux]
    by_cases h1 : cur = ZERO_BYTES32
    · simp [h1]
    · rw [if_neg h1]
      by_cases h2 : visited.any (fun v => v = jsLower cur) = true
      · simp [h2]
      · rw [if_neg h2]
        by_cases h3 : (getCp cur).publishedAt = 0
        · simp [h3]
        · rw [if_neg h3]
          have := ih (getCp cur).predecessorId (jsLower cur :: visited)
          rcases hrec : getLineageAux getCp f (getCp cur).predecessorId
            (jsLower cur :: visited) with ⟨res, n⟩
          rw [hrec] at this
          simp only []
          omega

/-- A successful lineage walk returns at most `fuel` records, their
lowercased identifiers are pairwise distinct, and none of them was already
in the visited set. -/
theorem getLineageAux_ok_spec (getCp : String → ChainCheckpoint) :
    ∀ (fuel : Nat) (cur : String) (visited : List String)
      (l : List CheckpointRecord),
      (getLineageAux getCp fuel cur visited).1 = .ok l →
      l.length ≤ fuel ∧ (l.map fun r => jsLower r.checkpointId).Nodup ∧
        ∀ r ∈ l, jsLower r.checkpointId ∉ visited := by
  intro fuel
  induction fuel with
  | zero =>
    intro cur visited l h
    simp [getLineageAux] at h
    subst h
    simp
  | succ f ih =>
    intro cur visited l h
    simp only [getLineageAux] at h
    by_cases h1 : cur = ZERO_BYTES32
    · rw [if_pos h1] at h
      simp only [] at h
      injection h with h
      subst h
      simp
    · rw [if_neg h1] at h
      by_cases h2 : visited.any (fun v => v = jsLower cur) = true
      · rw [if_pos h2] at h
        exact absurd h (by simp)
      · rw [if_neg h2] at h
        by_cases h3 : (getCp cur).publishedAt = 0
        · rw [if_pos h3] at h
          exact absurd h (by simp)
        · rw [if_neg h3] at h
          rcases hrec : getLineageAux getCp f (getCp cur).predecessorId
            (jsLower cur :: visited) with ⟨res, n⟩
          rw [hrec] at h
          simp only [] at h
          rcases res with e | l2
          · exact absurd h (by simp [Except.map])
          · simp only [Except.map] at h
            injection h with h
            subst h
            have hmem : jsLower cur ∉ visited := by
              intro hc
              exact h2 (List.any_eq_true.mpr ⟨jsLower cur, hc, by simp⟩)
            rcases ih (getCp cur).predecessorId (jsLower cur :: visited) l2
              (by rw [hrec]) with ⟨hlen, hnd, hvis⟩
            refine ⟨by simpa using Nat.succ_le_succ hlen, ?_, ?_⟩
            · simp only [List.map_cons, List.nodup_cons]
              refine ⟨?_, hnd⟩
              intro hc
              rcases List.mem_map.mp hc with ⟨r, hr, hjr⟩
              exact (hvis r hr) (by rw [hjr]; exact List.mem_cons_self _ _)
            · intro r hr
              rcases List.mem_cons.mp hr with rfl | hr2
              · exact hmem
              · intro hc
                exact (hvis r hr2) (List.mem_cons_of_mem _ hc)

/-- A lineage-cycle error names an identifier whose lowercase form was
walked earlier: if the walk starts `d` steps into the chain with the first
`d` lowercased iterates as the visited set, a cycle error at `c` exhibits an
earlier iterate with the same lowercase form. -/
theorem getLineageAux_cycle_spec (getCp : String → ChainCheckpoint) (start : String) :
    ∀ (fuel d : Nat) (visited : List String) (c : String),
      (∀ v, v ∈ visited ↔ ∃ j, j < d ∧ jsLower (chainIterate getCp j start) = v) →
      (getLineageAux getCp fuel (chainIterate getCp d start) visited).1 =
        .error (.lineageCycle c) →
      ∃ j k, j < k ∧ chainIterate getCp k start = c ∧
        jsLower (chainIterate getCp j start) = jsLower c := by
  intro fuel
  induction fuel with
  | zero =>
    intro d visited c _ h
    simp [getLineageAux] at h
  | succ f ih =>
    intro d visited c hvis h
    simp only [getLineageAux] at h
    set cur := chainIterate getCp d start with hcur
    by_cases h1 : cur = ZERO_BYTES32
    · rw [if_pos h1] at h
      exact absurd h (by simp)
    · rw [if_neg h1] at h
      by_cases h2 : visited.any (fun v => v = jsLower cur) = true
      · rw [if_pos h2] at h
        simp only [Except.error.injEq, Err.lineageCycle.injEq] at h
        subst h
        rcases List.any_eq_true.mp h2 with ⟨v, hv, hveq⟩
        have hveq2 : v = jsLower cur := by simpa using hveq
        rcases (hvis v).mp hv with ⟨j, hj, hjv⟩
        exact ⟨j, d, hj, rfl, by rw [hjv, hveq2]⟩
      · rw [if_neg h2] at h
        by_cases h3 : (getCp cur).publishedAt = 0
        · rw [if_pos h3] at h
          exact absurd h (by simp)
        · rw [if_neg h3] at h
          rcases hrec : getLineageAux getCp f (getCp cur).predecessorId
            (jsLower cur :: visited) with ⟨res, n⟩
          rw [hrec] at h
          rcases res with e | l2
          · simp only [Except.map] at h
            injection h with h
            subst h
            have hnext : (getCp cur).predecessorId = chainIterate getCp (d + 1) start := by
              rw [chainIterate_succ_right, hcur]
            have hvis2 : ∀ v, v ∈ (jsLower cur :: visited) ↔
                ∃ j, j < d + 1 ∧ jsLower (chainIterate getCp j start) = v := by
              intro v
              constructor
              · intro hv
                rcases List.mem_cons.mp hv with rfl | hv2
                · exact ⟨d, Nat.lt_succ_self d, by rw [← hcur]⟩
                · rcases (hvis v).mp hv2 with ⟨j, hj, hjv⟩
                  exact ⟨j, Nat.lt_succ_of_lt hj, hjv⟩
              · intro ⟨j, hj, hjv⟩
                by_cases hjd : j = d
                · subst hjd
                  rw [← hcur] at hjv
                  exact hjv ▸ List.mem_cons_self _ _
                · exact List.mem_cons_of_mem _
                    ((hvis v).mpr ⟨j, by omega, hjv⟩)
            exact ih (d + 1) (jsLower cur :: visited) c hvis2 (by rw [← hnext, hrec])
          · exact absurd h (by simp [Except.map])

/-- Claim C8: for every external record source, start identifier and
maximum depth, the backward lineage walk performs at most `maxDepth`
predecessor lookups and returns at most `maxDepth` records (terminating even
against a source that never yields the zero sentinel, the model being total
by construction); on success the lowercased identifiers walked are pairwise
distinct; and a lineage-cycle error names an identifier that, compared
case-insensitively, equals one visited earlier in the same walk. -/
theorem getLineage_spec (getCp : String → ChainCheckpoint) (start : String)
    (maxDepth : Nat) :
    (getLineage getCp start maxDepth).2 ≤ maxDepth ∧
    (∀ l, (getLineage getCp start maxDepth).1 = .ok l →
      l.length ≤ maxDepth ∧ (l.map fun r => jsLower r.checkpointId).Nodup) ∧
    (∀ c, (getLineage getCp start maxDepth).1 = .error (.lineageCycle c) →
      ∃ j k, j < k ∧ chainIterate getCp k start = c ∧
        jsLower (chainIterate getCp j start) = jsLower c) := by
  refine ⟨getLineageAux_lookups_le getCp maxDepth start [], ?_, ?_⟩
  · intro l h
    rcases getLineageAux_ok_spec getCp maxDepth start [] l h with ⟨h1, h2, _⟩
    exact ⟨h1, h2⟩
  · intro c h
    exact getLineageAux_cycle_spec getCp start maxDepth 0 [] c (by simp) h

/-- Witness for C8: against the two-cycle source the walk stays within its
lookup budget and reports the cycle with a twice-walked identifier. -/
theorem getLineage_spec_witness :
    (getLineage cycSource "0xa" 10).2 ≤ 10 ∧
    ∃ j k, j < k ∧ chainIterate cycSource k "0xa" = "0xa" ∧
      jsLower (chainIterate cycSource j "0xa") = jsLower "0xa" :=
  ⟨(getLineage_spec cycSource "0xa" 10).1,
    (getLineage_spec cycSource "0xa" 10).2.2 "0xa" rfl⟩

-- C1 -----------------------------------------------------------------------

/-- Steps 4-11 of `consume` append exactly the checkpoint-read and download
events to the trace — in particular they never invoke `redeem`. -/
theorem consumeRest_trace (deps : ConsumeDeps) (cid : String) (env : KeyEnvelope)
    (ev : List ConsumeEvent) :
    (consumeRest deps cid env ev).2 =
      ev ++ [ConsumeEvent.getCheckpointCall, ConsumeEvent.downloadCall] := by
  unfold consumeRest
  rcases deps.downloadRes with u | ct
  · simp
  · simp only []
    rcases verifyCiphertextHash ct (parseCheckpointFromContract cid deps.checkpoint).ciphertextHash
      with e | b
    · simp
    · simp only []
      rcases unwrapKey env deps.secretKey with e | k
      · simp
      · simp only []
        rcases decrypt ct k with e | p
        · simp
        · simp only []
          rcases deserializeCapsule p with e | cap
          · simp
          · simp only []
            rcases verifyStateCommitment cap
              (parseCheckpointFromContract cid deps.checkpoint).stateCommitment with e | b2
            · simp
            · simp

/-- Claim C1: in every `consume` run in which `hasRedeemed` returns false
and the pre-flight `fetchEnvelope` rejects, `consume` fails with the
envelope-not-yet-available error and never invokes `redeem`; whenever
`redeem` is invoked, the run had `hasRedeemed = false` and the trace starts
with the `hasRedeemed` check, then a SUCCESSFUL envelope fetch, then the
redeem call — so `redeem` only runs after `fetchEnvelope` returned an
envelope; and in every run where `hasRedeemed` returns true, `redeem` is
never invoked at all. -/
theorem consume_ordering_spec (deps : ConsumeDeps) (checkpointId : String) :
    (deps.signerAddress ≠ none → deps.hasRedeemedRes = false →
      deps.fetchEnvelopeRes = .error () →
      (consume deps checkpointId).1 = .error .envelopeNotYetAvailable ∧
      ConsumeEvent.redeemCall ∉ (consume deps checkpointId).2) ∧
    (ConsumeEvent.redeemCall ∈ (consume deps checkpointId).2 →
      deps.hasRedeemedRes = false ∧
      (∃ env, deps.fetchEnvelopeRes = .ok env) ∧
      (consume deps checkpointId).2.take 3 =
        [ConsumeEvent.hasRedeemedCall false, ConsumeEvent.fetchEnvelopeCall true,
          ConsumeEvent.redeemCall]) ∧
    (deps.hasRedeemedRes = true →
      ConsumeEvent.redeemCall ∉ (consume deps checkpointId).2) := by
  refine ⟨?_, ?_, ?_⟩
  · intro hsig hred hfetch
    rcases hs : deps.signerAddress with _ | a
    · exact absurd hs hsig
    · constructor <;> simp [consume, hs, hred, hfetch]
  · intro hmem
    rcases hs : deps.signerAddress with _ | a
    · simp [consume, hs] at hmem
    · rcases hb : deps.hasRedeemedRes
      · rcases hf : deps.fetchEnvelopeRes with u | env
        · simp [consume, hs, hb, hf] at hmem
        · refine ⟨rfl, ⟨env, rfl⟩, ?_⟩
          rcases hr : deps.redeemRes with u | u
          · simp [consume, hs, hb, hf, hr]
          · have ht := consumeRest_trace deps checkpointId env
              [ConsumeEvent.hasRedeemedCall false, ConsumeEvent.fetchEnvelopeCall true,
                ConsumeEvent.redeemCall]
            simp [consume, hs, hb, hf, hr, ht]
      · rcases hf : deps.fetchEnvelopeRes with u | env
        · simp [consume, hs, hb, hf] at hmem
        · have ht := consumeRest_trace deps checkpointId env
            [ConsumeEvent.hasRedeemedCall true, ConsumeEvent.fetchEnvelopeCall true]
          simp [consume, hs, hb, hf, ht] at hmem
  · intro hb
    rcases hs : deps.signerAddress with _ | a
    · simp [consume, hs]
    · rcases hf : deps.fetchEnvelopeRes with u | env
      · simp [consume, hs, hb, hf]
      · have ht := consumeRest_trace deps checkpointId env
          [ConsumeEvent.hasRedeemedCall true, ConsumeEvent.fetchEnvelopeCall true]
        simp [consume, hs, hb, hf, ht]

/-- Witness for C1: with an envelope that is not yet deliverable, a concrete
run raises the envelope-not-yet-available error and performs no redeem
call. -/
theorem consume_ordering_spec_witness :
    (consume depsPreflightFail "0xcp").1 = .error .envelopeNotYetAvailable ∧
    ConsumeEvent.redeemCall ∉ (consume depsPreflightFail "0xcp").2 :=
  (consume_ordering_spec depsPreflightFail "0xcp").1 (by simp [depsPreflightFail]) rfl rfl

-- C2 -----------------------------------------------------------------------

/-- `decrypt` inverts `encrypt` for a 32-byte key, a 12-byte IV and a
well-formed byte plaintext. -/
theorem decrypt_encrypt (key iv p : Bytes) (hkey : key.length = 32)
    (hiv : iv.length = 12) (hp : ∀ b ∈ p, b < 256) :
    decrypt (iv ++ gcmCipher key iv p ++ gcmTag key iv (gcmCipher key iv p)) key =
      .ok p := by
  set c := gcmCipher key iv p with hc
  set tag := gcmTag key iv c with htag
  have hlc : c.length = p.length := gcmCipher_length key iv p
  have hlt : tag.length = 16 := gcmTag_length key iv c
  have hlen : (iv ++ c ++ tag).length = p.length + 28 := by
    simp only [List.length_append, hiv, hlc, hlt]
    omega
  have h12 : (iv ++ c ++ tag).length - 16 = (iv ++ c).length := by
    simp only [List.length_append, hiv, hlc, hlt]
    omega
  have e1 : (iv ++ c ++ tag).take 12 = iv := by
    rw [List.append_assoc]
    exact List.take_left' hiv
  have e2 : (iv ++ c ++ tag).drop ((iv ++ c ++ tag).length - 16) = tag := by
    rw [h12]
    exact List.drop_left (iv ++ c) tag
  have e3 : ((iv ++ c ++ tag).take ((iv ++ c ++ tag).length - 16)).drop 12 = c := by
    rw [h12, List.take_left, List.drop_left' hiv]
  simp only [decrypt, KEY_LENGTH, IV_LENGTH, AUTH_TAG_LENGTH]
  rw [if_neg (by omega), if_neg (by omega), e1, e2, e3, if_pos htag.symm, hc,
    gcmDecipher_gcmCipher key iv p hp]

/-- Claim C2: for every valid capsule, every optional metadata value, and
explicit seal-time randomness (32-byte content key, 12-byte IV), sealing
succeeds, and unsealing with the sealed capsule's own ciphertext, key, state
commitment and content hash succeeds and returns a capsule equal to the
original in the claim's stated sense: its canonical serialization is
byte-for-byte identical to that of the original (`JSON.parse` of the
canonical text returns the deep-key-sorted image of the capsule, whose
canonical bytes coincide with the original's). -/
theorem seal_unseal_roundtrip (capsule : Json) (metadata : Option Json)
    (key iv : Bytes) (hv : assertValidCapsule capsule = .ok ())
    (hkey : key.length = 32) (hiv : iv.length = 12) :
    ∃ sealed c2, sealCapsule capsule metadata key iv = .ok sealed ∧
      sealed.encryptionKey = key ∧
      unsealCapsule sealed.ciphertext sealed.encryptionKey
        (some sealed.stateCommitment) (some sealed.contentHash) = .ok c2 ∧
      canonicalBytes c2 = canonicalBytes capsule := by
  have hser : serializeCapsule capsule = .ok (canonicalBytes capsule) := by
    simp [serializeCapsule, hv]
  have hsc : computeStateCommitment capsule = .ok (hashBytes (canonicalBytes capsule)) := by
    simp [computeStateCommitment, hser, Except.map]
  set p := canonicalBytes capsule with hp
  set c := gcmCipher key iv p with hcdef
  set tag := gcmTag key iv c with htagdef
  have hplt : ∀ b ∈ p, b < 256 := by
    rw [hp]
    exact utf8Encode_lt (canonicalizeJson capsule)
  have henc : encrypt p key iv = .ok (iv ++ c ++ tag) := by
    simp [encrypt, KEY_LENGTH, hkey]
  have hsealed : sealCapsule capsule metadata key iv = .ok
      { ciphertext := iv ++ c ++ tag,
        contentHash := computeCiphertextHash (iv ++ c ++ tag),
        stateCommitment := hashBytes p,
        metadataHash :=
          match metadata with
          | some m => if jsTruthy m then computeMetadataHash m else ZERO_BYTES32
          | none => ZERO_BYTES32,
        encryptionKey := key } := by
    simp [sealCapsule, hser, hsc, henc]
  have hdec : decrypt (iv ++ c ++ tag) key = .ok p :=
    decrypt_encrypt key iv p hkey hiv hplt
  have hdeser : deserializeCapsule p = .ok (sortKeysDeep capsule) := by
    rw [hp]
    simp [deserializeCapsule, canonicalBytes, utf8Decode_utf8Encode,
      jsonParse_canonicalizeJson, assertValidCapsule_sortKeysDeep capsule hv]
  have hvct : verifyCiphertextHash (iv ++ c ++ tag)
      (computeCiphertextHash (iv ++ c ++ tag)) = .ok true := by
    simp [verifyCiphertextHash]
  have hser2 : serializeCapsule (sortKeysDeep capsule) = .ok (canonicalBytes capsule) := by
    simp [serializeCapsule, assertValidCapsule_sortKeysDeep capsule hv,
      canonicalBytes_sortKeysDeep]
  have hvsc : verifyStateCommitment (sortKeysDeep capsule) (hashBytes p) = .ok true := by
    simp [verifyStateCommitment, computeStateCommitment, hser2, Except.map, hp]
  have hne1 : computeCiphertextHash (iv ++ c ++ tag) ≠ "" :=
    toHex_ne_empty (keccak_256 (iv ++ c ++ tag))
  have hne2 : hashBytes p ≠ "" := toHex_ne_empty (keccak_256 p)
  have hunseal : unsealCapsule (iv ++ c ++ tag) key (some (hashBytes p))
      (some (computeCiphertextHash (iv ++ c ++ tag))) = .ok (sortKeysDeep capsule) := by
    simp only [unsealCapsule, if_pos hne1, if_pos hne2, hvct, hdec, hdeser, hvsc]
  exact ⟨_, sortKeysDeep capsule, hsealed, rfl, hunseal,
    canonicalBytes_sortKeysDeep capsule⟩

/-- Witness for C2: a concrete capsule round-trips through seal and unseal
with a concrete key and IV. -/
theorem seal_unseal_roundtrip_witness :
    ∃ sealed c2,
      sealCapsule (.obj [("payload", .obj [("a", .num 1)]), ("version", .str "1.0.0")])
        none (List.replicate 32 7) (List.replicate 12 3) = .ok sealed ∧
      sealed.encryptionKey = List.replicate 32 7 ∧
      unsealCapsule sealed.ciphertext sealed.encryptionKey
        (some sealed.stateCommitment) (some sealed.contentHash) = .ok c2 ∧
      canonicalBytes c2 =
        canonicalBytes (.obj [("payload", .obj [("a", .num 1)]), ("version", .str "1.0.0")]) :=
  seal_unseal_roundtrip (.obj [("payload", .obj [("a", .num 1)]), ("version", .str "1.0.0")])
    none (List.replicate 32 7) (List.replicate 12 3) rfl (by decide) (by decide)

-- C7 -----------------------------------------------------------------------

end Mindstate
